import Mathlib

/-
Verification development for the mcp_rag repository.

Shallow embedding of the chunking pipeline (app/content_processor.py) and the
similarity retriever (app/retrieval_engine.py). Text is modelled as `List Char`
(Python strings are sequences of code points). External collaborators (the
Python `ast` parser, tree-sitter, and the embedding model) are oracles: their
outputs are passed to the embedded functions as explicit arguments, exactly as
the source consumes them.
-/

attribute [local semireducible] Rat.add Rat.mul Rat.sub Rat.inv

/-- Python strings are sequences of code points; we model them as `List Char`. -/
abbrev Str := List Char

/-- Python `str.isspace` / regex `\s` for the ASCII range: space, tab, newline,
carriage return, vertical tab, form feed. (Exotic Unicode whitespace is not
modelled.) -/
def pyWhitespace (c : Char) : Bool :=
  c == ' ' || c == '\t' || c == '\n' || c == '\r' || c == Char.ofNat 11 || c == Char.ofNat 12

/-- Line-break characters recognised by Python `str.splitlines`:
newline, carriage return, vertical tab, form feed, FS, GS, RS, NEL,
LINE SEPARATOR, PARAGRAPH SEPARATOR. -/
def pyLineBreak (c : Char) : Bool :=
  c == '\n' || c == '\r' || c == Char.ofNat 11 || c == Char.ofNat 12 ||
  c == Char.ofNat 28 || c == Char.ofNat 29 || c == Char.ofNat 30 ||
  c == Char.ofNat 133 || c == Char.ofNat 8232 || c == Char.ofNat 8233

/-- Worker for `splitLines`; `acc` holds the current line reversed. -/
def splitLinesGo : Str → Str → List Str
  | acc, [] => if acc.isEmpty then [] else [acc.reverse]
  | acc, '\r' :: '\n' :: rest => acc.reverse :: splitLinesGo [] rest
  | acc, c :: rest =>
    if pyLineBreak c then acc.reverse :: splitLinesGo [] rest
    else splitLinesGo (c :: acc) rest

/-- Python `str.splitlines()`: split at line-break characters (with `\r\n`
counting as a single break); a trailing break does not produce an empty last
line; the empty string yields no lines. -/
def splitLines (s : Str) : List Str := splitLinesGo [] s

/-- Python `"\n".join(lines)`. -/
def joinNL (ls : List Str) : Str := List.intercalate ['\n'] ls

/-- Sum of `len(line) + 1` over a list of lines — the running character count
kept by `_chunk_by_size` (one `+1` per line for its newline). -/
def sumLens (ls : List Str) : ℕ := (ls.map (fun l => l.length + 1)).sum

/-- Worker for `tokenCount`: the Bool records whether we are inside a token. -/
def tokenCountGo : Str → Bool → ℕ
  | [], _ => 0
  | c :: rest, inTok =>
    if pyWhitespace c then tokenCountGo rest false
    else (if inTok then 0 else 1) + tokenCountGo rest true

/-- Python `len(content.split())`: the number of maximal non-whitespace runs. -/
def tokenCount (s : Str) : ℕ := tokenCountGo s false

/-- Python `str.strip()`: drop whitespace from both ends. -/
def pyStrip (s : Str) : Str :=
  ((s.dropWhile pyWhitespace).reverse.dropWhile pyWhitespace).reverse

/-- Python `s.lower()` (ASCII case folding suffices for the extensions used). -/
def lowerStr (s : Str) : Str := s.map Char.toLower

/-- Python `sub in hay` (substring containment). -/
def containsSub : Str → Str → Bool
  | hay, sub =>
    if sub.isPrefixOf hay then true
    else match hay with
      | [] => false
      | _ :: t => containsSub t sub

/-- Python `os.path.basename` for POSIX paths: everything after the last slash. -/
def basenameOf (p : Str) : Str := (p.reverse.takeWhile (fun c => c != '/')).reverse

/-- Python `os.path.splitext(p)[1]`: the extension starts at the last dot of the
basename, provided some earlier character of the basename is not a dot
(so `.gitignore` has no extension). -/
def extOf (p : Str) : Str :=
  let b := basenameOf p
  if b.contains '.' then
    let r := b.reverse
    let afterR := r.takeWhile (fun c => c != '.')
    let beforeR := r.drop (afterR.length + 1)
    if beforeR.any (fun c => c != '.') then '.' :: afterR.reverse else []
  else []

/-- Python slice `l[a:b]` for natural indices. -/
def sliceList {α : Type} (l : List α) (a b : ℕ) : List α := (l.drop a).take (b - a)

/-- Python `s.count(c)` restricted to one character. -/
def countNL (s : Str) : ℕ := s.count '\n'

/-- Metadata dictionaries attached to chunks. The source only ever builds
an empty dict, a one-key dict with key "type", or the markdown-section dict
with keys "type" and "heading_level"; we model these three shapes. -/
inductive ChunkMeta where
  | empty : ChunkMeta
  | kind (ty : Str) : ChunkMeta
  | mdSection (ty : Str) (headingLevel : ℕ) : ChunkMeta
deriving DecidableEq

/-- ContentChunk (content_processor.py): a chunk of content with metadata.
`token_count` mirrors the derived field set by `__init__`. -/
structure ContentChunk where
  content : Str
  file_path : Str
  chunk_type : Str
  start_line : Option ℕ
  end_line : Option ℕ
  language : Option Str
  parent : Option Str
  name : Option Str
  metadata : ChunkMeta
  token_count : ℕ
deriving DecidableEq

/-- ContentChunk.__init__: stores the given fields and derives
`token_count = len(content.split())`. -/
def ContentChunk.make (content file_path chunk_type : Str)
    (start_line end_line : Option ℕ) (language parent name : Option Str)
    (metadata : ChunkMeta) : ContentChunk :=
  ⟨content, file_path, chunk_type, start_line, end_line, language, parent, name,
   metadata, tokenCount content⟩

/-- File-type constants from content_processor.py. -/
def FILE_TYPE_CODE : Str := "code".toList
def FILE_TYPE_DOCUMENTATION : Str := "documentation".toList
def FILE_TYPE_CONFIGURATION : Str := "configuration".toList
def FILE_TYPE_UNKNOWN : Str := "unknown".toList
def LANG_PYTHON : Str := "python".toList
def LANG_JAVA : Str := "java".toList
def LANG_GO : Str := "go".toList
def LANG_UNKNOWN : Str := "unknown".toList

/-- The backward walk of `_chunk_by_size` that seeds the next buffer: iterate
over the reversed closed buffer, prepending whole lines while the accumulated
length (line length + 1 each) stays within `overlap`. Returns the overlap lines
and their accumulated length. -/
def overlapGo (overlap : ℕ) : List Str → ℕ → List Str → List Str × ℕ
  | [], olen, acc => (acc, olen)
  | l :: rest, olen, acc =>
    if overlap < olen + l.length + 1 then (acc, olen)
    else overlapGo overlap rest (olen + l.length + 1) (l :: acc)

/-- The enumerated-lines loop of `_chunk_by_size`. Arguments after the line
list: the 1-based index `i` of the next line, the current buffer, its running
character count, and the buffer's starting line. On end of input, a non-empty
buffer is emitted as the final chunk whose end line is the total number of
lines (`i - 1`). -/
def chunkLoop (file_path chunk_type language : Str) (chunk_size overlap : ℕ) :
    List Str → ℕ → List Str → ℕ → ℕ → List ContentChunk
  | [], i, buf, _, s =>
    if buf.isEmpty then []
    else [ContentChunk.make (joinNL buf) file_path chunk_type (some s) (some (i - 1))
          (some language) none none (.kind ("size_based_chunk".toList))]
  | line :: rest, i, buf, len, s =>
    let buf' := buf ++ [line]
    let len' := len + line.length + 1
    if chunk_size ≤ len' then
      let c := ContentChunk.make (joinNL buf') file_path chunk_type (some s) (some i)
        (some language) none none (.kind ("size_based_chunk".toList))
      let ov := overlapGo overlap buf'.reverse 0 []
      c :: chunkLoop file_path chunk_type language chunk_size overlap rest (i + 1)
        ov.1 ov.2 (i - ov.1.length + 1)
    else chunkLoop file_path chunk_type language chunk_size overlap rest (i + 1) buf' len' s

/-- ContentProcessor._chunk_by_size: windowed fallback chunker. Splits into
lines, accumulates them until the running count (each line length + 1) reaches
`chunk_size`, emits the buffer as a chunk, reseeds the buffer with an overlap
suffix, and emits any remainder as a final chunk. Empty line list gives no
chunks. -/
def chunk_by_size (content file_path chunk_type language : Str)
    (chunk_size overlap : ℕ) : List ContentChunk :=
  let lines := splitLines content
  if lines.isEmpty then []
  else chunkLoop file_path chunk_type language chunk_size overlap lines 1 [] 0 1

example : splitLines ("a\nb\n".toList) = ["a".toList, "b".toList] := by decide
example : splitLines ([] : Str) = [] := by decide
example : tokenCount ("# A\nx\n".toList) = 3 := by decide
example :
    (chunk_by_size ("abcd\nxy".toList) ("f".toList) FILE_TYPE_CODE LANG_PYTHON 5 0).map
      (fun c => (c.content, c.start_line, c.end_line)) =
    [("abcd".toList, some 1, some 1), ("xy".toList, some 2, some 2)] := by decide

/-- ContentProcessor.classify_file: classify a path by extension, then apply
the filename, GitHub-workflow, package-manifest, and GitHub-path overrides in
the source's order (later assignments win). -/
def classify_file (file_path : Str) : Str × Str :=
  let ext := lowerStr (extOf file_path)
  let base :=
    if ext ∈ [".md".toList, ".rst".toList, ".txt".toList, ".docx".toList, ".pdf".toList] then
      (FILE_TYPE_DOCUMENTATION, ext.drop 1)
    else if ext ∈ [".json".toList, ".yaml".toList, ".yml".toList, ".toml".toList,
                   ".ini".toList, ".cfg".toList, ".conf".toList] then
      (FILE_TYPE_CONFIGURATION, ext.drop 1)
    else if ext = ".py".toList then (FILE_TYPE_CODE, LANG_PYTHON)
    else if ext = ".js".toList then (FILE_TYPE_CODE, "javascript".toList)
    else if ext ∈ [".ts".toList, ".tsx".toList] then (FILE_TYPE_CODE, "typescript".toList)
    else if ext = ".java".toList then (FILE_TYPE_CODE, LANG_JAVA)
    else if ext = ".go".toList then (FILE_TYPE_CODE, LANG_GO)
    else if ext = ".rb".toList then (FILE_TYPE_CODE, "ruby".toList)
    else if ext = ".rs".toList then (FILE_TYPE_CODE, "rust".toList)
    else if ext ∈ [".cpp".toList, ".cc".toList, ".cxx".toList, ".c".toList,
                   ".h".toList, ".hpp".toList] then (FILE_TYPE_CODE, "cpp".toList)
    else if ext = ".cs".toList then (FILE_TYPE_CODE, "csharp".toList)
    else (FILE_TYPE_UNKNOWN, LANG_UNKNOWN)
  let filename := basenameOf file_path
  let afterName :=
    if filename = "Dockerfile".toList then (FILE_TYPE_CONFIGURATION, "dockerfile".toList)
    else if filename ∈ [".gitignore".toList, ".dockerignore".toList] then
      (FILE_TYPE_CONFIGURATION, "ignore".toList)
    else if filename ∈ ["Makefile".toList, "makefile".toList] then
      (FILE_TYPE_CONFIGURATION, "makefile".toList)
    else base
  let afterWorkflow :=
    if containsSub file_path (".github/workflows".toList) ∧ ext ∈ [".yml".toList, ".yaml".toList]
    then (FILE_TYPE_CONFIGURATION, "github_workflow".toList)
    else afterName
  let afterPackage :=
    if filename ∈ ["package.json".toList, "package-lock.json".toList, "yarn.lock".toList] then
      (FILE_TYPE_CONFIGURATION, "npm".toList)
    else if filename ∈ ["requirements.txt".toList, "Pipfile".toList, "Pipfile.lock".toList,
                        "pyproject.toml".toList, "setup.py".toList] then
      (FILE_TYPE_CONFIGURATION, "python_package".toList)
    else afterWorkflow
  if containsSub file_path (".github/".toList) then (FILE_TYPE_CONFIGURATION, "github".toList)
  else afterPackage

example : classify_file (".github/workflows/ci.yml".toList) =
    (FILE_TYPE_CONFIGURATION, "github".toList) := by decide
example : classify_file (".github/ISSUE_TEMPLATE.md".toList) =
    (FILE_TYPE_CONFIGURATION, "github".toList) := by decide
example : classify_file ("src/app.py".toList) = (FILE_TYPE_CODE, LANG_PYTHON) := by decide
example : classify_file ("wf/ci.yml".toList) =
    (FILE_TYPE_CONFIGURATION, "yml".toList) := by decide
example : classify_file (".gitignore".toList) =
    (FILE_TYPE_CONFIGURATION, "ignore".toList) := by decide

/-- Length of the run of a given character at position `pos`. -/
def hashRun (l : Str) (pos : ℕ) : ℕ := ((l.drop pos).takeWhile (fun c => c == '#')).length

/-- Length of the run of regex-`\s` characters at position `pos`. -/
def wsRun (l : Str) (pos : ℕ) : ℕ := ((l.drop pos).takeWhile pyWhitespace).length

/-- Position of the next newline at or after `pos` (or end of string):
where `$` can match after a lazy `(.+?)` group. -/
def lineEndFrom (l : Str) (pos : ℕ) : ℕ :=
  pos + ((l.drop pos).takeWhile (fun c => c != '\n')).length

/-- Backtracking of the greedy `\s+` when the string ends right after the
whitespace run: try shorter whitespace matches `s = w-1, w-2, ..., 1` until the
freed character (a whitespace character at `base + s`) can be consumed by `.`,
i.e. is not a newline. Returns the chosen `s`. -/
def wsBacktrack (l : Str) (base : ℕ) : ℕ → Option ℕ
  | 0 => none
  | s + 1 => if l.get? (base + s + 1) != some '\n' then some (s + 1) else wsBacktrack l base s

/-- A heading match of `re.compile(r'^(#' ++ "{1,6}" ++ r')\s+(.+?)$', re.MULTILINE)`:
match start, heading level (number of hashes), start of group 2, and match end. -/
structure MdHeading where
  start : ℕ
  level : ℕ
  textStart : ℕ
  mEnd : ℕ
deriving DecidableEq

/-- Attempt the heading pattern at an anchored position: 1–6 hashes (a seventh
hash kills every backtracking choice), at least one `\s` character, then the
lazy `(.+?)$` takes the rest of the line, which must be non-empty; when the
string ends immediately after the whitespace run, the greedy `\s+` backtracks
to leave a non-newline whitespace character for `.` to consume. -/
def mdMatchAt (l : Str) (pos : ℕ) : Option MdHeading :=
  let r := hashRun l pos
  if r = 0 ∨ 6 < r then none
  else
    let base := pos + r
    let w := wsRun l base
    if w = 0 then none
    else if base + w < l.length then
      some ⟨pos, r, base + w, lineEndFrom l (base + w)⟩
    else match wsBacktrack l base (w - 1) with
      | some s => some ⟨pos, r, base + s, lineEndFrom l (base + s)⟩
      | none => none

/-- The scan of `re.finditer`: walk positions left to right, try the pattern at
each `^`-anchored position (offset 0 or just after a newline), and continue
after the end of each match. The fuel starts at `l.length + 1` and every step
advances the position by at least one, so it never runs out. -/
def scanGo (l : Str) : ℕ → ℕ → List MdHeading
  | _, 0 => []
  | pos, fuel + 1 =>
    if l.length ≤ pos then []
    else if pos == 0 || l.get? (pos - 1) == some '\n' then
      match mdMatchAt l pos with
      | some m => m :: scanGo l (max (pos + 1) m.mEnd) fuel
      | none => scanGo l (pos + 1) fuel
    else scanGo l (pos + 1) fuel

/-- All heading matches of the markdown heading pattern, in document order. -/
def findHeadings (l : Str) : List MdHeading := scanGo l 0 (l.length + 1)

/-- ContentProcessor._chunk_markdown_by_heading: chunk Markdown by headings.
With no headings, delegate to `_chunk_by_size` (1500/250). Otherwise one chunk
per heading section (heading start up to next heading start or end of file),
with approximate line numbers from newline counts, plus a prepended
"Introduction" chunk when non-blank content precedes the first heading. -/
def chunk_markdown_by_heading (file_path content : Str) : List ContentChunk :=
  let hs := findHeadings content
  if hs.isEmpty then
    chunk_by_size content file_path FILE_TYPE_DOCUMENTATION ("md".toList) 1500 250
  else
    let ends := (hs.drop 1).map MdHeading.start ++ [content.length]
    let main := (hs.zip ends).map (fun p =>
      let heading_text := pyStrip (sliceList content p.1.textStart p.1.mEnd)
      let sect := sliceList content p.1.start p.2
      let start_line := countNL (sliceList content 0 p.1.start) + 1
      let end_line := start_line + countNL sect
      ContentChunk.make sect file_path FILE_TYPE_DOCUMENTATION
        (some start_line) (some end_line) (some ("md".toList)) none (some heading_text)
        (.mdSection ("markdown_section".toList) p.1.level))
    match hs with
    | [] => main
    | h0 :: _ =>
      if 0 < h0.start then
        let pre := sliceList content 0 h0.start
        if (pyStrip pre).isEmpty then main
        else
          ContentChunk.make pre file_path FILE_TYPE_DOCUMENTATION
            (some 1) (some (countNL pre + 1)) (some ("md".toList)) none
            (some ("Introduction".toList)) (.kind ("markdown_intro".toList)) :: main
      else main

example :
    (chunk_markdown_by_heading ("doc.md".toList) ("# A\nx\n## B\ny".toList)).map
      (fun c => (c.name, c.metadata, c.start_line, c.end_line, c.content)) =
    [(some ("A".toList), .mdSection ("markdown_section".toList) 1, some 1, some 3,
      "# A\nx\n".toList),
     (some ("B".toList), .mdSection ("markdown_section".toList) 2, some 3, some 4,
      "## B\ny".toList)] := by decide
example : findHeadings ("hello\nworld".toList) = [] := by decide
example : (findHeadings ("intro\n### T x\nbody".toList)).map
    (fun m => (m.start, m.level, m.textStart, m.mEnd)) = [(6, 3, 10, 13)] := by decide

/-- The metadata dict attached to the detailed Java error records (keys
"column", "context", "error_node_type", "containing_element"). -/
structure JavaErrMeta where
  column : ℕ
  context : Str
  error_node_type : Str
  containing_element : Str
deriving DecidableEq

/-- One record held by SyntaxErrorTracker.errors. The tracker's `add_error`
method declares `line_number` and `function_name` as required positional
parameters (its docstring calls them optional, but they have no defaults), so
any call omitting them raises TypeError instead of appending a record. -/
structure ErrRecord where
  file_path : Str
  language : Str
  error_msg : Str
  line_number : Option ℕ
  function_name : Option Str
  metadata : Option JavaErrMeta
deriving DecidableEq

/-- Result of one chunker call: the records it appended to the shared error
tracker, and either the returned value or `Except.error ()` when an exception
(such as the `TypeError` raised by an `add_error` call that omits required
arguments) escapes the chunker to its caller. -/
instance {ε α : Type} [DecidableEq ε] [DecidableEq α] : DecidableEq (Except ε α)
  | Except.ok a, Except.ok b =>
    if h : a = b then isTrue (by rw [h]) else isFalse (fun hh => by cases hh; exact h rfl)
  | Except.ok _, Except.error _ => isFalse (fun h => Except.noConfusion h)
  | Except.error _, Except.ok _ => isFalse (fun h => Except.noConfusion h)
  | Except.error e, Except.error f =>
    if h : e = f then isTrue (by rw [h]) else isFalse (fun hh => by cases hh; exact h rfl)

structure ChunkerResult (α : Type) where
  errors : List ErrRecord
  ret : Except Unit α
deriving DecidableEq

/-- The slice of the Python `ast` module the chunker inspects: top-level
statements, with classes carrying their body. `lineno`/`end_lineno` are the
values the source reads out of its `line_numbers` map (CPython sets both on
every ClassDef/FunctionDef). -/
inductive PyStmt where
  | classDef (name : Str) (lineno endLineno : Option ℕ) (body : List PyStmt) : PyStmt
  | funcDef (name : Str) (lineno endLineno : Option ℕ) : PyStmt
  | other : PyStmt

/-- Python truthiness of the line-number values used in
`if cls_start and cls_end:` — `None` and `0` are falsy. -/
def truthy : Option ℕ → Bool
  | none => false
  | some n => !(n == 0)

/-- Outcome of `ast.parse`: a syntax tree, a SyntaxError (message and optional
`lineno`), or any other exception. -/
inductive PyParseOutcome where
  | ok (body : List PyStmt) : PyParseOutcome
  | synErr (msg : Str) (lineno : Option ℕ) : PyParseOutcome
  | otherExc : PyParseOutcome

/-- The method chunks extracted for one class body: one chunk per direct
`FunctionDef` whose line numbers are truthy. -/
def pyMethodChunks (file_path content cls_name : Str) : List PyStmt → List ContentChunk :=
  List.filterMap (fun st => match st with
    | PyStmt.funcDef mn msl mel =>
      if truthy msl && truthy mel then
        let ms := msl.getD 0
        let me := mel.getD 0
        some (ContentChunk.make (joinNL (sliceList (splitLines content) (ms - 1) me))
          file_path FILE_TYPE_CODE (some ms) (some me) (some LANG_PYTHON)
          (some cls_name) (some mn) (.kind ("method".toList)))
      else none
    | _ => none)

/-- The class chunks of `_process_python_code`: for each top-level ClassDef with
truthy line numbers, one class chunk followed by its method chunks. -/
def pyClassChunks (file_path content : Str) (sts : List PyStmt) : List ContentChunk :=
  sts.flatMap (fun st => match st with
    | PyStmt.classDef nm sl el cbody =>
      if truthy sl && truthy el then
        let s := sl.getD 0
        let e := el.getD 0
        ContentChunk.make (joinNL (sliceList (splitLines content) (s - 1) e))
          file_path FILE_TYPE_CODE (some s) (some e) (some LANG_PYTHON)
          none (some nm) (.kind ("class".toList))
        :: pyMethodChunks file_path content nm cbody
      else []
    | _ => [])

/-- The standalone-function chunks of `_process_python_code`: one chunk per
top-level FunctionDef with truthy line numbers. -/
def pyFuncChunks (file_path content : Str) : List PyStmt → List ContentChunk :=
  List.filterMap (fun st => match st with
    | PyStmt.funcDef nm sl el =>
      if truthy sl && truthy el then
        let s := sl.getD 0
        let e := el.getD 0
        some (ContentChunk.make (joinNL (sliceList (splitLines content) (s - 1) e))
          file_path FILE_TYPE_CODE (some s) (some e) (some LANG_PYTHON)
          none (some nm) (.kind ("function".toList)))
      else none
    | _ => none)

/-- ContentProcessor._process_python_code. On a successful parse: class chunks
(with nested method chunks), then standalone function chunks, or one whole-file
chunk when nothing was extracted. On SyntaxError the handler calls
`add_error(file_path=..., language=..., error_msg=..., line_number=...)`,
omitting the required `function_name` parameter, so the call itself raises
TypeError which escapes the chunker: no record is appended and the windowed
fallback on the lines below is never reached. On any other exception the
generic handler falls back to `_chunk_by_size` without touching the tracker. -/
def process_python_code (file_path content : Str) :
    PyParseOutcome → ChunkerResult (List ContentChunk)
  | PyParseOutcome.synErr _ _ => ⟨[], Except.error ()⟩
  | PyParseOutcome.otherExc =>
    ⟨[], Except.ok (chunk_by_size content file_path FILE_TYPE_CODE LANG_PYTHON 1500 200)⟩
  | PyParseOutcome.ok body =>
    let chunks := pyClassChunks file_path content body ++ pyFuncChunks file_path content body
    if chunks.isEmpty then
      ⟨[], Except.ok [ContentChunk.make content file_path FILE_TYPE_CODE none none
        (some LANG_PYTHON) none none (.kind ("whole_file".toList))]⟩
    else ⟨[], Except.ok chunks⟩

example :
    process_python_code ("m.py".toList) ("def f(:".toList)
      (PyParseOutcome.synErr ("invalid syntax".toList) (some 1)) =
    ⟨[], Except.error ()⟩ := rfl
example :
    (process_python_code ("m.py".toList) ("class C:\n  def m(self):\n    pass\ndef g():\n  pass".toList)
      (PyParseOutcome.ok
        [PyStmt.classDef ("C".toList) (some 1) (some 3)
          [PyStmt.funcDef ("m".toList) (some 2) (some 3)],
         PyStmt.funcDef ("g".toList) (some 4) (some 5)])).ret =
    Except.ok
      [ContentChunk.make ("class C:\n  def m(self):\n    pass".toList) ("m.py".toList)
        FILE_TYPE_CODE (some 1) (some 3) (some LANG_PYTHON) none (some ("C".toList))
        (.kind ("class".toList)),
       ContentChunk.make ("  def m(self):\n    pass".toList) ("m.py".toList)
        FILE_TYPE_CODE (some 2) (some 3) (some LANG_PYTHON) (some ("C".toList))
        (some ("m".toList)) (.kind ("method".toList)),
       ContentChunk.make ("def g():\n  pass".toList) ("m.py".toList)
        FILE_TYPE_CODE (some 4) (some 5) (some LANG_PYTHON) none (some ("g".toList))
        (.kind ("function".toList))] := rfl

/-- A tree-sitter syntax-tree node as the chunkers read it: node type, the
`has_error` and `is_missing` flags, start/end points (0-based row and column),
start/end byte offsets, the node's own text (`node.text` decoded), the child
returned by `child_by_field_name("name")`, and the ordered child list.
Byte offsets are modelled as code-point offsets into the content (they agree
for ASCII content). The tree is oracle input: the parser is external. -/
inductive TSNode where
  | mk (ty : Str) (hasErr isMissing : Bool) (startRow startCol endRow endCol : ℕ)
       (startByte endByte : ℕ) (text : Str) (nameChild : Option TSNode)
       (children : List TSNode) : TSNode

def TSNode.ty : TSNode → Str
  | .mk t _ _ _ _ _ _ _ _ _ _ _ => t

def TSNode.hasErr : TSNode → Bool
  | .mk _ he _ _ _ _ _ _ _ _ _ _ => he

def TSNode.isMissing : TSNode → Bool
  | .mk _ _ im _ _ _ _ _ _ _ _ _ => im

def TSNode.startRow : TSNode → ℕ
  | .mk _ _ _ sr _ _ _ _ _ _ _ _ => sr

def TSNode.startCol : TSNode → ℕ
  | .mk _ _ _ _ sc _ _ _ _ _ _ _ => sc

def TSNode.endRow : TSNode → ℕ
  | .mk _ _ _ _ _ er _ _ _ _ _ _ => er

def TSNode.endCol : TSNode → ℕ
  | .mk _ _ _ _ _ _ ec _ _ _ _ _ => ec

def TSNode.startByte : TSNode → ℕ
  | .mk _ _ _ _ _ _ _ sb _ _ _ _ => sb

def TSNode.endByte : TSNode → ℕ
  | .mk _ _ _ _ _ _ _ _ eb _ _ _ => eb

def TSNode.text : TSNode → Str
  | .mk _ _ _ _ _ _ _ _ _ tx _ _ => tx

def TSNode.nameChild : TSNode → Option TSNode
  | .mk _ _ _ _ _ _ _ _ _ _ nc _ => nc

def TSNode.children : TSNode → List TSNode
  | .mk _ _ _ _ _ _ _ _ _ _ _ ch => ch

mutual

/-- Structural equality of tree nodes (standing in for Python object identity
in the parent-chain walk; identical duplicate subtrees are not distinguished). -/
def TSNode.beq : TSNode → TSNode → Bool
  | .mk t1 he1 im1 sr1 sc1 er1 ec1 sb1 eb1 tx1 nc1 ch1,
    .mk t2 he2 im2 sr2 sc2 er2 ec2 sb2 eb2 tx2 nc2 ch2 =>
    t1 == t2 && he1 == he2 && im1 == im2 && sr1 == sr2 && sc1 == sc2 &&
    er1 == er2 && ec1 == ec2 && sb1 == sb2 && eb1 == eb2 && tx1 == tx2 &&
    TSNode.obeq nc1 nc2 && TSNode.lbeq ch1 ch2

def TSNode.obeq : Option TSNode → Option TSNode → Bool
  | none, none => true
  | some a, some b => TSNode.beq a b
  | _, _ => false

def TSNode.lbeq : List TSNode → List TSNode → Bool
  | [], [] => true
  | a :: as, b :: bs => TSNode.beq a b && TSNode.lbeq as bs
  | _, _ => false

end

instance : BEq TSNode := ⟨TSNode.beq⟩

/-- Entries of the plain dicts built by `_process_go_code`. -/
inductive GoVal where
  | s (v : Str) : GoVal
  | n (v : ℕ) : GoVal
deriving DecidableEq

/-- The dict literal `_process_go_code` appends per declaration node — a plain
Python dict, not a ContentChunk. -/
abbrev GoDict := List (Str × GoVal)

/-- Python `d.get(k)` / `k in d` lookup on the dict model. -/
def dictLookup (d : GoDict) (k : Str) : Option GoVal :=
  (d.find? (fun p => p.1 == k)).map (fun p => p.2)

mutual

/-- The nested `extract_chunks` of `_process_go_code`: depth-first preorder
walk; for each declaration node emit the dict literal with the name taken from
the `name` field child (`"unnamed"` when absent) and the stripped byte-span
text; then recurse into the children. -/
def go_extract_node (file_path content : Str) : TSNode → List GoDict
  | .mk t _he _im sr _sc er _ec sb eb _tx nc ch =>
    (if t ∈ ["function_declaration".toList, "method_declaration".toList,
             "type_declaration".toList, "struct_type".toList] then
      [[("file_path".toList, GoVal.s file_path),
        ("language".toList, GoVal.s ("go".toList)),
        ("name".toList, GoVal.s (match nc with
          | some nn => nn.text
          | none => "unnamed".toList)),
        ("type".toList, GoVal.s t),
        ("start_line".toList, GoVal.n (sr + 1)),
        ("end_line".toList, GoVal.n (er + 1)),
        ("content".toList, GoVal.s (pyStrip (sliceList content sb eb)))]]
    else []) ++ go_extract_list file_path content ch

def go_extract_list (file_path content : Str) : List TSNode → List GoDict
  | [] => []
  | c :: rest => go_extract_node file_path content c ++ go_extract_list file_path content rest

end

/-- ContentProcessor._process_go_code. When the parse raises, the handler's
`add_error(file_path=..., language=..., error_msg=...)` omits the required
`line_number` and `function_name` parameters and raises TypeError, which
escapes. When the tree parses but `root.has_error` is set, the in-band
`add_error` call omits the same required parameters; its TypeError is caught
by the function's own `except Exception` handler, whose `add_error` call
raises again and escapes. Only an error-free tree reaches `extract_chunks`. -/
def process_go_code (file_path content : Str) :
    Except Unit TSNode → ChunkerResult (List GoDict)
  | Except.error _ => ⟨[], Except.error ()⟩
  | Except.ok root =>
    if root.hasErr then ⟨[], Except.error ()⟩
    else ⟨[], Except.ok (go_extract_node file_path content root)⟩

mutual

/-- The nested `find_error_nodes` of `_process_java_code`: collect every node
that has the error flag, is missing, or has type "ERROR", in preorder. The
root is collected whenever `root.has_error` holds. -/
def find_error_nodes : TSNode → List TSNode
  | .mk t he im sr sc er ec sb eb tx nc ch =>
    (if he || im || t == ("ERROR".toList) then [TSNode.mk t he im sr sc er ec sb eb tx nc ch]
     else []) ++ find_error_list ch

def find_error_list : List TSNode → List TSNode
  | [] => []
  | c :: rest => find_error_nodes c ++ find_error_list rest

end

mutual

/-- Ancestor chain of `target` below `n`, innermost parent first and ending
with `n` itself, mirroring the `.parent` walk of `_process_java_code`
(modulo structural equality standing in for object identity). -/
def findAncPath (target : TSNode) : TSNode → Option (List TSNode)
  | .mk t he im sr sc er ec sb eb tx nc ch =>
    let n := TSNode.mk t he im sr sc er ec sb eb tx nc ch
    if ch.any (fun c => TSNode.beq c target) then some [n]
    else match findAncList target ch with
      | some p => some (p ++ [n])
      | none => none

def findAncList (target : TSNode) : List TSNode → Option (List TSNode)
  | [] => none
  | c :: rest => match findAncPath target c with
    | some p => some p
    | none => findAncList target rest

end

/-- The containing-element resolution of `_process_java_code`: walk the parent
links from the error node, stopping before the root, and return the first
parent whose type is a class/method/field declaration, else "Unknown". -/
def containingElement (root en : TSNode) : Str :=
  match findAncPath en root with
  | some chain =>
    match chain.dropLast.find? (fun p =>
      p.ty ∈ ["class_declaration".toList, "method_declaration".toList,
              "field_declaration".toList]) with
    | some p => p.ty
    | none => "Unknown".toList
  | none => "Unknown".toList

/-- The detailed error record `_process_java_code` appends for one error node:
1-based line and column, a context window of `lines[line_num-4 : line_num+3]`
(clamped), the error kind, and the containing element. -/
def mkJavaErr (file_path content : Str) (root en : TSNode) : ErrRecord :=
  let line_num := en.startRow + 1
  let col_num := en.startCol + 1
  let lines := splitLines content
  let context := joinNL (sliceList lines (line_num - 4) (min lines.length (line_num + 3)))
  let error_type :=
    if en.ty == ("ERROR".toList) then "Syntax Error".toList
    else if en.isMissing then "Missing Element".toList
    else "Unknown".toList
  let containing := containingElement root en
  ⟨file_path, LANG_JAVA, error_type ++ (" in ".toList) ++ containing,
   some line_num, some containing, some ⟨col_num, context, en.ty, containing⟩⟩

/-- ContentProcessor._process_class_node: one chunk for the class (text and
line range straight from the node, name from the `name` field child or
"UnknownClass"), then one chunk per direct `method_declaration` child with
`parent` set to the class name (name from its `name` field child or
"UnknownMethod"). -/
def process_class_node (class_node : TSNode) (file_path content : Str) : List ContentChunk :=
  let class_name := match class_node.nameChild with
    | some n => sliceList content n.startByte n.endByte
    | none => "UnknownClass".toList
  ContentChunk.make (sliceList content class_node.startByte class_node.endByte)
    file_path FILE_TYPE_CODE (some (class_node.startRow + 1)) (some (class_node.endRow + 1))
    (some ("java".toList)) none (some class_name) (.kind ("class".toList))
  :: (class_node.children.filterMap (fun child =>
    if child.ty = ("method_declaration".toList) then
      some (ContentChunk.make (sliceList content child.startByte child.endByte)
        file_path FILE_TYPE_CODE (some (child.startRow + 1)) (some (child.endRow + 1))
        (some ("java".toList)) (some class_name)
        (some (match child.nameChild with
          | some n => sliceList content n.startByte n.endByte
          | none => "UnknownMethod".toList))
        (.kind ("method".toList)))
    else none))

mutual

/-- The nested `find_classes_and_methods` of `_process_java_code`: walk the
children; a `class_declaration` child is handed to `_process_class_node`,
any other child is recursed into (so classes nested in other declarations are
found, but classes nested inside a class body are not revisited). -/
def find_classes_and_methods (file_path content : Str) : TSNode → List ContentChunk
  | .mk _t _he _im _sr _sc _er _ec _sb _eb _tx _nc ch => fcm_list file_path content ch

def fcm_list (file_path content : Str) : List TSNode → List ContentChunk
  | [] => []
  | c :: rest =>
    (if c.ty = ("class_declaration".toList) then process_class_node c file_path content
     else find_classes_and_methods file_path content c) ++ fcm_list file_path content rest

end

/-- ContentProcessor._process_java_code. A hard parse exception is handled by
an `except` block whose `add_error` call omits the required `line_number` and
`function_name` parameters and raises TypeError, which escapes (the windowed
fallback below it is unreachable). When the tree has `root.has_error` set, one
detailed record per collected error node is appended (the root itself always
qualifies, so the generic-record branch for an empty collection is dead code —
were it reached, its 3-argument `add_error` call would raise the same
TypeError), and the class/method chunks are extracted and returned. When the
tree is error-free, control falls off the end of the `try` block and the
function returns Python `None` — no structural extraction happens. -/
def process_java_code (file_path content : Str) :
    Except Unit TSNode → ChunkerResult (Option (List ContentChunk))
  | Except.error _ => ⟨[], Except.error ()⟩
  | Except.ok root =>
    if root.hasErr then
      let ens := find_error_nodes root
      if ens.isEmpty then ⟨[], Except.error ()⟩
      else ⟨ens.map (mkJavaErr file_path content root),
            Except.ok (some (find_classes_and_methods file_path content root))⟩
    else ⟨[], Except.ok none⟩

/-- Embedding vectors; numpy float arrays are idealised as exact rationals. -/
abbrev Vec := List ℚ

/-- Dot product (numpy requires equal lengths; zipWith semantics). -/
def dotQ : Vec → Vec → ℚ
  | [], _ => 0
  | _, [] => 0
  | a :: as, b :: bs => a * b + dotQ as bs

/-- The sqrt-free representation of the cosine-similarity score of a candidate
`v` against the query `q`: the pair `(q·v, (q·q)(v·v))`. The float score
`q·v / (‖q‖‖v‖)` of the source is `p.1 / sqrt p.2`; keeping the pair instead
of the irrational value keeps the retriever computable, and `cosR` below maps
the pair to the real score. -/
def simKey (q v : Vec) : ℚ × ℚ := (dotQ q v, dotQ q q * dotQ v v)

/-- Real-valued cosine similarity of a score pair: `p.1 / sqrt p.2`, with the
sklearn convention that a zero norm yields similarity 0 (sklearn `normalize`
maps zero vectors to zero). -/
noncomputable def cosR (p : ℚ × ℚ) : ℝ :=
  if p.2 = 0 then 0 else (p.1 : ℝ) / Real.sqrt (p.2 : ℝ)

/-- Decidable comparison `cosR a ≤ cosR b` on score pairs, by sign analysis on
the numerators and cross-multiplied squares (valid for pairs arising from
`simKey`, whose second component is nonnegative and vanishes only with the
first). -/
def cosLE (a b : ℚ × ℚ) : Bool :=
  if 0 < a.1 then
    if 0 < b.1 then decide (a.1 ^ 2 * b.2 ≤ b.1 ^ 2 * a.2) else false
  else if 0 ≤ b.1 then true
  else if a.1 = 0 then false
  else decide (b.1 ^ 2 * a.2 ≤ a.1 ^ 2 * b.2)

/-- The order `np.argsort` sorts enumerated scores by: ascending score with
ascending original index on ties. numpy's default sort is not guaranteed
stable, but it is deterministic and agrees with the stable order on the
concrete inputs considered here; the stable ascending order is the standard
reading of argsort. -/
abbrev keyOrder (a b : ℕ × (ℚ × ℚ)) : Prop :=
  cosLE a.2 b.2 = true ∧ (cosLE b.2 a.2 = true → a.1 ≤ b.1)

/-- Python slice `l[:k]` for an arbitrary integer `k`: a nonnegative `k` takes
the first `k` elements; a negative `k` drops the last `|k|` elements. -/
def pySlice {α : Type} (l : List α) (k : ℤ) : List α :=
  if 0 ≤ k then l.take k.toNat else l.take (l.length - (-k).toNat)

/-- CosineRetriever (retrieval_engine.py): a corpus of (chunk text, vector)
pairs plus the external embedding model, modelled as the function giving the
single row of `embed_model.encode([query])`. -/
structure CosineRetriever where
  embedded_chunks : List (Str × Vec)
  embed_model : Str → Vec

/-- The sorted, reversed, sliced index/score list at the heart of
CosineRetriever.retrieve: `np.argsort(scores)[::-1][:top_k]`, with each index
paired with its score key. -/
def retrieveIdx (r : CosineRetriever) (query : Str) (top_k : ℤ) : List (ℕ × (ℚ × ℚ)) :=
  let qv := r.embed_model query
  let keys := r.embedded_chunks.map (fun p => simKey qv p.2)
  pySlice ((keys.enum.insertionSort keyOrder).reverse) top_k

/-- CosineRetriever.retrieve. `sklearn.cosine_similarity` raises a ValueError
on an empty candidate matrix (the `np.array` of no vectors is not 2-D) and on
a dimension mismatch between query and candidates; both are modelled as the
error outcome. Otherwise the scores are computed, argsorted ascending,
reversed, sliced by `[:top_k]` (Python semantics, including negative `top_k`),
and mapped back to `(chunk_text, score)` pairs. -/
def retrieve (r : CosineRetriever) (query : Str) (top_k : ℤ) :
    Except Unit (List (Str × (ℚ × ℚ))) :=
  let qv := r.embed_model query
  if r.embedded_chunks.isEmpty then Except.error ()
  else if !(r.embedded_chunks.all (fun p => p.2.length == qv.length)) then Except.error ()
  else Except.ok ((retrieveIdx r query top_k).map (fun p =>
    ((r.embedded_chunks.map Prod.fst).getD p.1 [], p.2)))

/-- A two-candidate retriever whose candidates are identical, hence tied. -/
def tiedRetriever : CosineRetriever :=
  ⟨[("A".toList, [1]), ("B".toList, [1])], fun _ => [1]⟩

example : retrieve tiedRetriever ("q".toList) 5 =
    Except.ok [("B".toList, (1, 1)), ("A".toList, (1, 1))] := by decide
example : retrieve tiedRetriever ("q".toList) 0 = Except.ok [] := by decide
example : retrieve tiedRetriever ("q".toList) (-1) =
    Except.ok [("B".toList, (1, 1))] := by decide
example : retrieve ⟨[], fun _ => [1]⟩ ("q".toList) 5 = Except.error () := by decide
example : retrieve ⟨[(("A").toList, [3, 4]), (("B").toList, [5, 0])], fun _ => [1, 0]⟩
    ("q".toList) 2 =
    Except.ok [("B".toList, (5, 25)), ("A".toList, (3, 25))] := by decide

/-- Claim C5 counterexample: `classify_file(".github/workflows/ci.yml")` does
not return language "github_workflow" — the later `.github/` override rewrites
the language to "github", so the claim as stated is false at this input. -/
theorem claim_C5_counterexample :
    classify_file (".github/workflows/ci.yml".toList) ≠
      (FILE_TYPE_CONFIGURATION, "github_workflow".toList) ∧
    classify_file (".github/workflows/ci.yml".toList) =
      (FILE_TYPE_CONFIGURATION, "github".toList) := by
  constructor
  · decide
  · decide

/-- Claim C5 (amended): classify_file on ".github/workflows/ci.yml" returns
category Configuration with language "github" (the final `.github/` substring
rule overrides the earlier workflow rule), and on ".github/ISSUE_TEMPLATE.md"
it also returns Configuration with language "github". -/
theorem claim_C5_amended :
    classify_file (".github/workflows/ci.yml".toList) =
      (FILE_TYPE_CONFIGURATION, "github".toList) ∧
    classify_file (".github/ISSUE_TEMPLATE.md".toList) =
      (FILE_TYPE_CONFIGURATION, "github".toList) := by
  constructor
  · decide
  · decide

/-- A Go parse tree whose root carries the tree-sitter error flag. -/
def goErrRoot : TSNode :=
  TSNode.mk ("source_file".toList) true false 0 0 0 6 0 6 ("func (".toList) none []

/-- Claim C1 (code bug): on every structural parse failure path, the chunkers
do not return a windowed fallback with one tracked error. A Python SyntaxError
reaches a handler whose `add_error` call omits the required `function_name`
parameter and raises TypeError, which escapes with no record and no fallback;
the Go chunker's hard-failure and error-flagged-tree paths both die in the
same way inside `add_error` (the latter after being caught once by the
function's own handler); and a Java hard parse failure dies in its handler's
`add_error` call before the windowed fallback line. Each evaluation returns
the escaped-exception outcome with an empty record list. -/
theorem claim_C1_parse_failure_escapes :
    process_python_code ("bad.py".toList) ("def f(:\n    pass".toList)
      (PyParseOutcome.synErr ("invalid syntax".toList) (some 1)) =
      ⟨[], Except.error ()⟩ ∧
    process_go_code ("bad.go".toList) ("func (".toList) (Except.error ()) =
      ⟨[], Except.error ()⟩ ∧
    process_go_code ("bad.go".toList) ("func (".toList) (Except.ok goErrRoot) =
      ⟨[], Except.error ()⟩ ∧
    process_java_code ("Bad.java".toList) ("class (".toList) (Except.error ()) =
      ⟨[], Except.error ()⟩ :=
  ⟨rfl, rfl, rfl, rfl⟩

/-- A syntactically valid Java file: content and its (error-free) tree. -/
def javaSampleContent : Str := "class A \x7b void m() \x7b\x7d \x7d".toList

def javaIdentA : TSNode :=
  TSNode.mk ("identifier".toList) false false 0 6 0 7 6 7 ("A".toList) none []

def javaIdentM : TSNode :=
  TSNode.mk ("identifier".toList) false false 0 15 0 16 15 16 ("m".toList) none []

def javaMethodNode : TSNode :=
  TSNode.mk ("method_declaration".toList) false false 0 10 0 20 10 21
    ("void m() \x7b\x7d".toList) (some javaIdentM) []

def javaClassNode : TSNode :=
  TSNode.mk ("class_declaration".toList) false false 0 0 0 22 0 23
    javaSampleContent (some javaIdentA) [javaMethodNode]

/-- Error-free tree for `javaSampleContent`. -/
def javaRootOK : TSNode :=
  TSNode.mk ("program".toList) false false 0 0 0 22 0 23 javaSampleContent none
    [javaClassNode]

/-- The same tree with the root error flag set. -/
def javaRootErr : TSNode :=
  TSNode.mk ("program".toList) true false 0 0 0 22 0 23 javaSampleContent none
    [javaClassNode]

/-- Claim C4 (code bug): on an error-free syntax tree the Java chunker emits no
chunks at all — the structural extraction sits inside the `if root.has_error:`
block, so for valid Java control falls off the end of the `try` and the
function returns Python `None`. The same tree with the error flag set shows
the intended extraction does run on the error path: one class chunk and one
method chunk with `parent` set to the class name, from the tree's spans, with
exactly one error record (for the flagged root). -/
theorem claim_C4_valid_java_returns_none :
    process_java_code ("A.java".toList) javaSampleContent (Except.ok javaRootOK) =
      ⟨[], Except.ok none⟩ ∧
    (process_java_code ("A.java".toList) javaSampleContent (Except.ok javaRootErr)).ret =
      Except.ok (some
        [ContentChunk.make javaSampleContent ("A.java".toList) FILE_TYPE_CODE
          (some 1) (some 1) (some ("java".toList)) none (some ("A".toList))
          (.kind ("class".toList)),
         ContentChunk.make ("void m() \x7b\x7d".toList) ("A.java".toList) FILE_TYPE_CODE
          (some 1) (some 1) (some ("java".toList)) (some ("A".toList))
          (some ("m".toList)) (.kind ("method".toList))]) ∧
    (process_java_code ("A.java".toList) javaSampleContent (Except.ok javaRootErr)).errors.length
      = 1 := by
  refine ⟨rfl, ?_, rfl⟩
  decide

/-- Claim C8: the markdown input "# A\nx\n## B\ny" yields exactly two
markdown-section chunks in document order, named "A" (heading level 1) and "B"
(heading level 2); and any input in which the heading pattern finds no match
is delegated entirely to the windowed chunker with the documentation defaults
(1500/250). -/
theorem claim_C8_markdown_sectioning :
    ((chunk_markdown_by_heading ("doc.md".toList) ("# A\nx\n## B\ny".toList)).map
      (fun c => (c.name, c.metadata)) =
      [(some ("A".toList), ChunkMeta.mdSection ("markdown_section".toList) 1),
       (some ("B".toList), ChunkMeta.mdSection ("markdown_section".toList) 2)]) ∧
    (∀ file_path content : Str, findHeadings content = [] →
      chunk_markdown_by_heading file_path content =
        chunk_by_size content file_path FILE_TYPE_DOCUMENTATION ("md".toList) 1500 250) := by
  constructor
  · decide
  · intro file_path content h
    simp [chunk_markdown_by_heading, h]

/-- Witness for claim C8: a concrete heading-free input really is delegated. -/
theorem claim_C8_witness :
    chunk_markdown_by_heading ("notes.md".toList) ("hello\nworld".toList) =
      chunk_by_size ("hello\nworld".toList) ("notes.md".toList)
        FILE_TYPE_DOCUMENTATION ("md".toList) 1500 250 :=
  claim_C8_markdown_sectioning.2 ("notes.md".toList) ("hello\nworld".toList) (by decide)

/-- Every chunk emitted by the windowed loop is built by the constructor, so
its token count is the whitespace token count of its own content. -/
theorem chunkLoop_token (fp ct lang : Str) (cs ov : ℕ) :
    ∀ (lines : List Str) (i : ℕ) (buf : List Str) (len s : ℕ),
      ∀ c ∈ chunkLoop fp ct lang cs ov lines i buf len s,
        c.token_count = tokenCount c.content := by
  intro lines
  induction lines with
  | nil =>
    intro i buf len s c hc
    simp only [chunkLoop] at hc
    split at hc
    · simp at hc
    · rcases List.mem_singleton.mp hc with h
      subst h
      rfl
  | cons line rest ih =>
    intro i buf len s c hc
    simp only [chunkLoop] at hc
    split at hc
    · rcases List.mem_cons.mp hc with h | h
      · subst h
        rfl
      · exact ih _ _ _ _ c h
    · exact ih _ _ _ _ c hc

/-- Windowed chunks carry the derived token count. -/
theorem chunk_by_size_token (content fp ct lang : Str) (cs ov : ℕ) :
    ∀ c ∈ chunk_by_size content fp ct lang cs ov,
      c.token_count = tokenCount c.content := by
  intro c hc
  simp only [chunk_by_size] at hc
  split at hc
  · simp at hc
  · exact chunkLoop_token fp ct lang cs ov _ _ _ _ _ c hc

/-- Markdown chunks carry the derived token count. -/
theorem chunk_markdown_token (fp content : Str) :
    ∀ c ∈ chunk_markdown_by_heading fp content,
      c.token_count = tokenCount c.content := by
  intro c hc
  simp only [chunk_markdown_by_heading] at hc
  split at hc
  · exact chunk_by_size_token content fp _ _ 1500 250 c hc
  · split at hc
    · rcases List.mem_map.mp hc with ⟨p, _, hp⟩
      subst hp
      rfl
    · split at hc
      · split at hc
        · rcases List.mem_map.mp hc with ⟨p, _, hp⟩
          subst hp
          rfl
        · rcases List.mem_cons.mp hc with h | h
          · subst h
            rfl
          · rcases List.mem_map.mp h with ⟨p, _, hp⟩
            subst hp
            rfl
      · rcases List.mem_map.mp hc with ⟨p, _, hp⟩
        subst hp
        rfl

/-- Python chunks carry the derived token count. -/
theorem python_token (fp content : Str) (pr : PyParseOutcome) (cs : List ContentChunk) :
    (process_python_code fp content pr).ret = Except.ok cs →
    ∀ c ∈ cs, c.token_count = tokenCount c.content := by
  intro hret c hc
  cases pr with
  | synErr msg ln => exact absurd hret (by simp [process_python_code])
  | otherExc =>
    simp only [process_python_code] at hret
    injection hret with h
    subst h
    exact chunk_by_size_token content fp _ _ 1500 200 c hc
  | ok body =>
    simp only [process_python_code] at hret
    split at hret
    · injection hret with h
      subst h
      rcases List.mem_singleton.mp hc with h
      subst h
      rfl
    · injection hret with h
      subst h
      rcases List.mem_append.mp hc with h | h
      · rcases List.mem_flatMap.mp h with ⟨st, _, hst⟩
        rcases st with ⟨nm, sl, el, cbody⟩ | ⟨nm, sl, el⟩ | _
        · simp only at hst
          split at hst
          · rcases List.mem_cons.mp hst with h2 | h2
            · subst h2
              rfl
            · rcases List.mem_filterMap.mp h2 with ⟨m, _, hm⟩
              rcases m with _ | ⟨mn, msl, mel⟩ | _
              · simp at hm
              · simp only at hm
                split at hm
                · injection hm with hm
                  subst hm
                  rfl
                · simp at hm
              · simp at hm
          · simp at hst
        · simp at hst
        · simp at hst
      · rcases List.mem_filterMap.mp h with ⟨st, _, hst⟩
        rcases st with ⟨nm, sl, el, cbody⟩ | ⟨nm, sl, el⟩ | _
        · simp at hst
        · simp only at hst
          split at hst
          · injection hst with hst
            subst hst
            rfl
          · simp at hst
        · simp at hst

mutual

/-- A predicate holding at every node of a tree. -/
def allNodes (P : TSNode → Prop) : TSNode → Prop
  | .mk t he im sr sc er ec sb eb tx nc ch =>
    P (TSNode.mk t he im sr sc er ec sb eb tx nc ch) ∧ allNodesList P ch

def allNodesList (P : TSNode → Prop) : List TSNode → Prop
  | [] => True
  | c :: rest => allNodes P c ∧ allNodesList P rest

end

theorem allNodesList_mem {P : TSNode → Prop} :
    ∀ {l : List TSNode}, allNodesList P l → ∀ x ∈ l, allNodes P x := by
  intro l
  induction l with
  | nil => intro _ x hx; simp at hx
  | cons a rest ih =>
    intro h x hx
    rcases List.mem_cons.mp hx with h1 | h1
    · subst h1; exact h.1
    · exact ih h.2 x h1

theorem allNodes_children {P : TSNode → Prop} {n : TSNode} (h : allNodes P n) :
    ∀ x ∈ n.children, allNodes P x := by
  cases n with
  | mk t he im sr sc er ec sb eb tx nc ch =>
    exact allNodesList_mem (by exact h.2)

theorem allNodes_self {P : TSNode → Prop} {n : TSNode} (h : allNodes P n) : P n := by
  cases n with
  | mk t he im sr sc er ec sb eb tx nc ch => exact h.1

theorem sizeOf_children_lt (n : TSNode) : sizeOf n.children < sizeOf n := by
  cases n with
  | mk t he im sr sc er ec sb eb tx nc ch => simp [TSNode.children]

/-- The walk `find_classes_and_methods` reaches children through `fcm_list`. -/
theorem fcm_children_eq (fp ct : Str) (n : TSNode) :
    find_classes_and_methods fp ct n = fcm_list fp ct n.children := by
  cases n with
  | mk t he im sr sc er ec sb eb tx nc ch => rfl

/-- Generic invariant transfer for the Java class/method walk: if every node
satisfies `Q` (hereditarily) and `Q` at a node forces the property on all
chunks `_process_class_node` emits for it, then every chunk of `fcm_list`
has the property. -/
theorem fcm_list_forall (fp ct : Str) (P : ContentChunk → Prop) (Q : TSNode → Prop)
    (hP : ∀ n, allNodes Q n → ∀ c ∈ process_class_node n fp ct, P c) :
    ∀ (k : ℕ) (l : List TSNode), sizeOf l ≤ k → allNodesList Q l →
      ∀ c ∈ fcm_list fp ct l, P c := by
  intro k
  induction k with
  | zero =>
    intro l hl
    cases l with
    | nil => intro _ c hc; simp [fcm_list] at hc
    | cons n rest => simp at hl
  | succ k ih =>
    intro l hl hq c hc
    cases l with
    | nil => simp [fcm_list] at hc
    | cons n rest =>
      simp only [fcm_list] at hc
      rcases List.mem_append.mp hc with h | h
      · split at h
        · exact hP n hq.1 c h
        · rw [fcm_children_eq] at h
          have hsz : sizeOf n.children ≤ k := by
            have h1 := sizeOf_children_lt n
            simp at hl
            omega
          have hq2 : allNodesList Q n.children := by
            cases n with
            | mk t he im sr sc er ec sb eb tx nc ch => exact hq.1.2
          exact ih n.children hsz hq2 c h
      · have hsz : sizeOf rest ≤ k := by simp at hl; omega
        exact ih rest hsz hq.2 c h

/-- Chunks of `_process_class_node` carry the derived token count. -/
theorem process_class_node_token (n : TSNode) (fp ct : Str) :
    ∀ c ∈ process_class_node n fp ct, c.token_count = tokenCount c.content := by
  intro c hc
  simp only [process_class_node] at hc
  rcases List.mem_cons.mp hc with h | h
  · subst h; rfl
  · rcases List.mem_filterMap.mp h with ⟨child, _, hch⟩
    split at hch
    · injection hch with hch
      subst hch
      rfl
    · simp at hch

/-- The trivial predicate holds at every node of every list of trees. -/
theorem allNodesList_true : ∀ (k : ℕ) (l : List TSNode), sizeOf l ≤ k →
    allNodesList (fun _ => True) l := by
  intro k
  induction k with
  | zero =>
    intro l hl
    cases l with
    | nil => simp [allNodesList]
    | cons n rest => simp at hl
  | succ k ih =>
    intro l hl
    cases l with
    | nil => simp [allNodesList]
    | cons n rest =>
      have hn : sizeOf n ≤ k := by simp at hl; omega
      refine ⟨?_, ih rest (by simp at hl; omega)⟩
      have hch : sizeOf n.children ≤ k := by
        have := sizeOf_children_lt n
        omega
      cases n with
      | mk t he im sr sc er ec sb eb tx nc ch => exact ⟨trivial, ih ch hch⟩

/-- Java chunks carry the derived token count. -/
theorem java_token (fp content : Str) (pr : Except Unit TSNode) (cs : List ContentChunk) :
    (process_java_code fp content pr).ret = Except.ok (some cs) →
    ∀ c ∈ cs, c.token_count = tokenCount c.content := by
  intro hret c hc
  cases pr with
  | error e => exact absurd hret (by simp [process_java_code])
  | ok root =>
    simp only [process_java_code] at hret
    split at hret
    · split at hret
      · exact absurd hret (by simp)
      · injection hret with h
        injection h with h
        subst h
        rw [fcm_children_eq] at hc
        exact fcm_list_forall fp content
          (fun c => c.token_count = tokenCount c.content) (fun _ => True)
          (fun n _ => process_class_node_token n fp content)
          (sizeOf root.children) root.children le_rfl
          (allNodesList_true _ root.children le_rfl) c hc
    · exact absurd hret (by simp)

/-- A small valid Go file: content and its (error-free) tree. -/
def goSampleContent : Str := "func main() \x7b\n\x7d".toList

def goIdentMain : TSNode :=
  TSNode.mk ("identifier".toList) false false 0 5 0 9 5 9 ("main".toList) none []

def goFnNode : TSNode :=
  TSNode.mk ("function_declaration".toList) false false 0 0 1 1 0 15
    goSampleContent (some goIdentMain) []

def goRootOK : TSNode :=
  TSNode.mk ("source_file".toList) false false 0 0 1 1 0 15 goSampleContent none
    [goFnNode]

/-- The dict `_process_go_code` emits for `goFnNode` — note it has no
"token_count" key at all. -/
def goMainDict : GoDict :=
  [("file_path".toList, GoVal.s ("main.go".toList)),
   ("language".toList, GoVal.s ("go".toList)),
   ("name".toList, GoVal.s ("main".toList)),
   ("type".toList, GoVal.s ("function_declaration".toList)),
   ("start_line".toList, GoVal.n 1),
   ("end_line".toList, GoVal.n 2),
   ("content".toList, GoVal.s goSampleContent)]

/-- Claim C9 counterexample: the Go chunker emits plain dicts that carry no
token estimate at all — `token_count` is absent from the record — so the claim
that every chunk produced by any chunker carries a whitespace-token estimate
fails on this concrete Go chunk. -/
theorem claim_C9_counterexample :
    (process_go_code ("main.go".toList) goSampleContent (Except.ok goRootOK)).ret =
      Except.ok [goMainDict] ∧
    dictLookup goMainDict ("token_count".toList) = none := by
  constructor
  · decide
  · rfl

/-- Claim C9 (amended): every ContentChunk — as produced by the constructor and
hence by the windowed, markdown, Python, and Java chunkers — carries
`token_count` equal to the whitespace-delimited token count of its own content,
derived at construction and never overridden by a chunker; the Go chunker is
the exception, emitting plain records without any token count. -/
theorem claim_C9_token_estimate :
    (∀ (content file_path chunk_type : Str) (start_line end_line : Option ℕ)
       (language parent nm : Option Str) (metadata : ChunkMeta),
      (ContentChunk.make content file_path chunk_type start_line end_line language
        parent nm metadata).token_count = tokenCount content) ∧
    (∀ (content fp ct lang : Str) (cs ov : ℕ),
      ∀ c ∈ chunk_by_size content fp ct lang cs ov,
        c.token_count = tokenCount c.content) ∧
    (∀ fp content : Str, ∀ c ∈ chunk_markdown_by_heading fp content,
        c.token_count = tokenCount c.content) ∧
    (∀ (fp content : Str) (pr : PyParseOutcome) (cs : List ContentChunk),
      (process_python_code fp content pr).ret = Except.ok cs →
      ∀ c ∈ cs, c.token_count = tokenCount c.content) ∧
    (∀ (fp content : Str) (pr : Except Unit TSNode) (cs : List ContentChunk),
      (process_java_code fp content pr).ret = Except.ok (some cs) →
      ∀ c ∈ cs, c.token_count = tokenCount c.content) :=
  ⟨fun _ _ _ _ _ _ _ _ _ => rfl,
   fun content fp ct lang cs ov => chunk_by_size_token content fp ct lang cs ov,
   fun fp content => chunk_markdown_token fp content,
   fun fp content pr cs => python_token fp content pr cs,
   fun fp content pr cs => java_token fp content pr cs⟩

/-- Witness for claim C9: the universally quantified parts applied at concrete
inputs, with every hypothesis discharged by evaluation. -/
theorem claim_C9_witness :
    ((ContentChunk.make ("a b".toList) ("f".toList) FILE_TYPE_CODE none none none
        none none ChunkMeta.empty).token_count = tokenCount ("a b".toList)) ∧
    (∀ c ∈ chunk_by_size ("abcd\nxy".toList) ("f".toList) FILE_TYPE_CODE LANG_PYTHON 5 0,
        c.token_count = tokenCount c.content) ∧
    (∀ c ∈ [ContentChunk.make ("def f(): pass".toList) ("m.py".toList) FILE_TYPE_CODE
        none none (some LANG_PYTHON) none none (ChunkMeta.kind ("whole_file".toList))],
        c.token_count = tokenCount c.content) :=
  ⟨claim_C9_token_estimate.1 ("a b".toList) ("f".toList) FILE_TYPE_CODE none none none
      none none ChunkMeta.empty,
   claim_C9_token_estimate.2.1 ("abcd\nxy".toList) ("f".toList) FILE_TYPE_CODE LANG_PYTHON 5 0,
   claim_C9_token_estimate.2.2.2.1 ("m.py".toList) ("def f(): pass".toList)
     (PyParseOutcome.ok []) _ (by decide)⟩

theorem sumLens_append (l : List Str) (x : Str) :
    sumLens (l ++ [x]) = sumLens l + (x.length + 1) := by
  simp [sumLens]

/-- The length of newline-joined lines: one less than the running count the
loop keeps (which charges one newline per line, including the last). -/
theorem joinNL_length : ∀ ls : List Str, ls ≠ [] → (joinNL ls).length + 1 = sumLens ls := by
  intro ls
  induction ls with
  | nil => intro h; exact absurd rfl h
  | cons a rest ih =>
    intro _
    cases rest with
    | nil => simp [joinNL, List.intercalate, sumLens]
    | cons b rest2 =>
      have h2 : joinNL (a :: b :: rest2) = a ++ ['\n'] ++ joinNL (b :: rest2) := by
        simp [joinNL, List.intercalate, List.intersperse]
      have h3 := ih (by simp)
      rw [h2]
      simp only [List.length_append, List.length_cons, List.length_nil]
      simp [sumLens] at h3 ⊢
      omega

/-- The overlap walk keeps its running length equal to the summed lengths of
the lines it collected. -/
theorem overlapGo_snd (ov : ℕ) : ∀ (l : List Str) (olen : ℕ) (acc : List Str),
    olen = sumLens acc →
    (overlapGo ov l olen acc).2 = sumLens (overlapGo ov l olen acc).1 := by
  intro l
  induction l with
  | nil => intro olen acc h; simpa [overlapGo] using h
  | cons x rest ih =>
    intro olen acc h
    simp only [overlapGo]
    split
    · exact h
    · exact ih _ _ (by simp [sumLens, h]; omega)

/-- The overlap walk never collects more lines than it was offered. -/
theorem overlapGo_length (ov : ℕ) : ∀ (l : List Str) (olen : ℕ) (acc : List Str),
    (overlapGo ov l olen acc).1.length ≤ l.length + acc.length := by
  intro l
  induction l with
  | nil => intro olen acc; simp [overlapGo]
  | cons x rest ih =>
    intro olen acc
    simp only [overlapGo]
    split
    · simp
    · have := ih (olen + x.length + 1) (x :: acc)
      simp at this ⊢
      omega

/-- Every non-final window of the loop has content of length at least
`chunk_size - 1`: a window is closed only when the running count (which adds
one newline per line, one more newline than the joined content contains)
reaches `chunk_size`. -/
theorem chunkLoop_size (fp ct lang : Str) (cs ov : ℕ) :
    ∀ (lines : List Str) (i : ℕ) (buf : List Str) (len s : ℕ), len = sumLens buf →
      ∀ c ∈ (chunkLoop fp ct lang cs ov lines i buf len s).dropLast,
        cs ≤ c.content.length + 1 := by
  intro lines
  induction lines with
  | nil =>
    intro i buf len s _ c hc
    simp only [chunkLoop] at hc
    split at hc
    · simp at hc
    · simp at hc
  | cons line rest ih =>
    intro i buf len s hinv c hc
    simp only [chunkLoop] at hc
    split at hc
    · rcases hrec : chunkLoop fp ct lang cs ov rest (i + 1)
          (overlapGo ov (buf ++ [line]).reverse 0 []).1
          (overlapGo ov (buf ++ [line]).reverse 0 []).2
          (i - (overlapGo ov (buf ++ [line]).reverse 0 []).1.length + 1) with
        _ | ⟨r0, rrest⟩
      · rw [hrec] at hc
        simp at hc
      · rw [hrec] at hc
        rw [List.dropLast_cons₂] at hc
        rcases List.mem_cons.mp hc with h | h
        · subst h
          have hlen : (joinNL (buf ++ [line])).length + 1 = sumLens (buf ++ [line]) :=
            joinNL_length _ (by simp)
          have hcond : cs ≤ len + line.length + 1 := by assumption
          have : sumLens (buf ++ [line]) = len + line.length + 1 := by
            rw [sumLens_append, hinv]
            omega
          simp only [ContentChunk.make]
          omega
        · have hov : (overlapGo ov (buf ++ [line]).reverse 0 []).2 =
              sumLens (overlapGo ov (buf ++ [line]).reverse 0 []).1 :=
            overlapGo_snd ov _ 0 [] (by simp [sumLens])
          have := ih (i + 1) (overlapGo ov (buf ++ [line]).reverse 0 []).1
            (overlapGo ov (buf ++ [line]).reverse 0 []).2
            (i - (overlapGo ov (buf ++ [line]).reverse 0 []).1.length + 1) hov c
          rw [hrec] at this
          exact this (by simpa using h)
    · exact ih (i + 1) (buf ++ [line]) _ s (by rw [sumLens_append, hinv]; omega) c hc

/-- Invariant-carrying specification of the windowed loop: with a 1-based
start, `s ≤ i`, and a buffer holding exactly lines `s … i-1`, (a) every line
index from `s` through the last input line is covered by some emitted window,
and (b) every emitted window has ordered line bounds. -/
theorem chunkLoop_cover (fp ct lang : Str) (cs ov : ℕ) :
    ∀ (lines : List Str) (i : ℕ) (buf : List Str) (len s : ℕ),
      1 ≤ s → s ≤ i → buf.length = i - s →
      (∀ j : ℕ, s ≤ j → j ≤ i - 1 + lines.length →
        ∃ c ∈ chunkLoop fp ct lang cs ov lines i buf len s,
          ∃ a b, c.start_line = some a ∧ c.end_line = some b ∧ a ≤ j ∧ j ≤ b) ∧
      (∀ c ∈ chunkLoop fp ct lang cs ov lines i buf len s,
        ∃ a b, c.start_line = some a ∧ c.end_line = some b ∧ a ≤ b) := by
  intro lines
  induction lines with
  | nil =>
    intro i buf len s h1 h2 h3
    constructor
    · intro j hj1 hj2
      simp only [chunkLoop]
      split
      · exfalso
        rename_i hbuf
        rw [List.isEmpty_iff] at hbuf
        subst hbuf
        simp at h3 hj2
        omega
      · refine ⟨_, List.mem_singleton.mpr rfl, s, i - 1, rfl, rfl, hj1, by simpa using hj2⟩
    · intro c hc
      simp only [chunkLoop] at hc
      split at hc
      · simp at hc
      · rcases List.mem_singleton.mp hc with h
        subst h
        rename_i hbuf
        have : buf.length ≠ 0 := by simpa using hbuf
        exact ⟨s, i - 1, rfl, rfl, by omega⟩
  | cons line rest ih =>
    intro i buf len s h1 h2 h3
    by_cases hcond : cs ≤ len + line.length + 1
    · have hkle : (overlapGo ov (buf ++ [line]).reverse 0 []).1.length ≤ i - s + 1 := by
        have hov2 := overlapGo_length ov (buf ++ [line]).reverse 0 []
        have hrl : (buf ++ [line]).reverse.length = buf.length + 1 := by simp
        have h0 : ([] : List Str).length = 0 := rfl
        omega
      have ihx := ih (i + 1) (overlapGo ov (buf ++ [line]).reverse 0 []).1
        (overlapGo ov (buf ++ [line]).reverse 0 []).2
        (i - (overlapGo ov (buf ++ [line]).reverse 0 []).1.length + 1)
        (by omega) (by omega) ?_
      · constructor
        · intro j hj1 hj2
          by_cases hji : j ≤ i
          · refine ⟨ContentChunk.make (joinNL (buf ++ [line])) fp ct (some s) (some i)
              (some lang) none none (ChunkMeta.kind ("size_based_chunk".toList)),
              ?_, s, i, rfl, rfl, hj1, hji⟩
            simp only [chunkLoop]
            rw [if_pos hcond]
            exact List.mem_cons_self _ _
          · rcases ihx.1 j (by omega) (by simp at hj2 ⊢; omega) with ⟨c, hcmem, spec⟩
            refine ⟨c, ?_, spec⟩
            simp only [chunkLoop]
            rw [if_pos hcond]
            exact List.mem_cons_of_mem _ hcmem
        · intro c hc
          simp only [chunkLoop] at hc
          rw [if_pos hcond] at hc
          rcases List.mem_cons.mp hc with h | h
          · subst h
            exact ⟨s, i, rfl, rfl, h2⟩
          · exact ihx.2 c h
      · have hblen : (buf ++ [line]).length = i - s + 1 := by simp [h3]
        omega
    · have ihx := ih (i + 1) (buf ++ [line]) (len + line.length + 1) s h1 (by omega)
        (by simp [h3]; omega)
      constructor
      · intro j hj1 hj2
        rcases ihx.1 j hj1 (by simp at hj2 ⊢; omega) with ⟨c, hcmem, spec⟩
        refine ⟨c, ?_, spec⟩
        simp only [chunkLoop]
        rw [if_neg hcond]
        exact hcmem
      · intro c hc
        simp only [chunkLoop] at hc
        rw [if_neg hcond] at hc
        exact ihx.2 c hc

/-- Claim C6 counterexample: with chunkSize 5, the input "abcd\nxy" produces a
first (non-final) window whose content "abcd" has only 4 characters — the loop
closes a window when the running count including a newline for every line
reaches chunkSize, and the joined content is one character shorter. -/
theorem claim_C6_counterexample :
    ((chunk_by_size ("abcd\nxy".toList) ("f.py".toList) FILE_TYPE_CODE LANG_PYTHON 5 0).map
      (fun c => c.content.length) = [4, 2]) ∧
    (chunk_by_size ("abcd\nxy".toList) ("f.py".toList) FILE_TYPE_CODE LANG_PYTHON 5 0).length
      = 2 ∧ ¬ (5 : ℕ) ≤ 4 := by
  refine ⟨by decide, by decide, by omega⟩

/-- Claim C6 (amended): every chunk emitted by `_chunk_by_size` except possibly
the last has content of character length at least `chunkSize - 1` (stated as
`chunkSize ≤ length + 1`): the closing condition counts one newline per
buffered line, including the final one, which the joined content lacks. -/
theorem claim_C6_window_size (content fp ct lang : Str) (cs ov : ℕ) :
    ∀ c ∈ (chunk_by_size content fp ct lang cs ov).dropLast,
      cs ≤ c.content.length + 1 := by
  intro c hc
  simp only [chunk_by_size] at hc
  split at hc
  · simp at hc
  · exact chunkLoop_size fp ct lang cs ov (splitLines content) 1 [] 0 1
      (by simp [sumLens]) c hc

/-- Witness for claim C6: the first window of the counterexample input has
content "abcd" and indeed satisfies the amended bound 5 ≤ 4 + 1. -/
theorem claim_C6_witness :
    5 ≤ (ContentChunk.make ("abcd".toList) ("f.py".toList) FILE_TYPE_CODE (some 1) (some 1)
      (some LANG_PYTHON) none none (ChunkMeta.kind ("size_based_chunk".toList))).content.length
      + 1 :=
  claim_C6_window_size ("abcd\nxy".toList) ("f.py".toList) FILE_TYPE_CODE LANG_PYTHON 5 0
    _ (by decide)

/-- Claim C7: empty content yields zero windows, and for any content every
line index (1-based, up to the number of lines) lies inside the line range of
at least one emitted window. -/
theorem claim_C7_window_coverage :
    (∀ fp ct lang : Str, ∀ cs ov : ℕ, chunk_by_size [] fp ct lang cs ov = []) ∧
    (∀ (content fp ct lang : Str) (cs ov : ℕ) (j : ℕ),
      1 ≤ j → j ≤ (splitLines content).length →
      ∃ c ∈ chunk_by_size content fp ct lang cs ov,
        ∃ a b, c.start_line = some a ∧ c.end_line = some b ∧ a ≤ j ∧ j ≤ b) := by
  constructor
  · intro fp ct lang cs ov
    rfl
  · intro content fp ct lang cs ov j hj1 hj2
    have hcov := (chunkLoop_cover fp ct lang cs ov (splitLines content) 1 [] 0 1
      le_rfl le_rfl (by simp)).1 j hj1 (by omega)
    simp only [chunk_by_size]
    split
    · rename_i hemp
      rw [List.isEmpty_iff] at hemp
      rw [hemp] at hj2
      simp at hj2
      omega
    · exact hcov

/-- Witness for claim C7: line 2 of "abcd\nxy" is covered by a concrete
emitted window. -/
theorem claim_C7_witness :
    ∃ c ∈ chunk_by_size ("abcd\nxy".toList) ("f.py".toList) FILE_TYPE_CODE LANG_PYTHON 5 0,
      ∃ a b, c.start_line = some a ∧ c.end_line = some b ∧ a ≤ 2 ∧ 2 ≤ b :=
  claim_C7_window_coverage.2 ("abcd\nxy".toList) ("f.py".toList) FILE_TYPE_CODE LANG_PYTHON
    5 0 2 (by omega) (by decide)

/-- Well-formedness of one tree-sitter node as the real parser guarantees it:
the start point's row does not exceed the end point's row. -/
def rowOK (n : TSNode) : Prop := n.startRow ≤ n.endRow

/-- Well-formedness the CPython parser guarantees for one statement node:
when both line numbers are truthy, `lineno ≤ end_lineno`. -/
def stmtLineOK : PyStmt → Prop
  | PyStmt.classDef _ sl el _ => truthy sl = true → truthy el = true → sl.getD 0 ≤ el.getD 0
  | PyStmt.funcDef _ sl el => truthy sl = true → truthy el = true → sl.getD 0 ≤ el.getD 0
  | PyStmt.other => True

/-- Direct body of a class statement (empty for other statements). -/
def pyBody : PyStmt → List PyStmt
  | PyStmt.classDef _ _ _ b => b
  | _ => []

/-- Windowed chunks have ordered line bounds. -/
theorem chunk_by_size_bounds (content fp ct lang : Str) (cs ov : ℕ) :
    ∀ c ∈ chunk_by_size content fp ct lang cs ov,
      ∀ a b : ℕ, c.start_line = some a → c.end_line = some b → a ≤ b := by
  intro c hc a b ha hb
  simp only [chunk_by_size] at hc
  split at hc
  · simp at hc
  · rcases (chunkLoop_cover fp ct lang cs ov (splitLines content) 1 [] 0 1
        le_rfl le_rfl (by simp)).2 c hc with ⟨a2, b2, ha2, hb2, hle⟩
    rw [ha] at ha2
    rw [hb] at hb2
    injection ha2 with h1
    injection hb2 with h2
    omega

/-- Markdown chunks have ordered line bounds. -/
theorem chunk_markdown_bounds (fp content : Str) :
    ∀ c ∈ chunk_markdown_by_heading fp content,
      ∀ a b : ℕ, c.start_line = some a → c.end_line = some b → a ≤ b := by
  intro c hc
  simp only [chunk_markdown_by_heading] at hc
  split at hc
  · exact chunk_by_size_bounds content fp _ _ 1500 250 c hc
  · split at hc
    · rcases List.mem_map.mp hc with ⟨p, _, hp⟩
      subst hp
      intro a b ha hb
      simp only [ContentChunk.make] at ha hb
      injection ha with h1
      injection hb with h2
      omega
    · split at hc
      · split at hc
        · rcases List.mem_map.mp hc with ⟨p, _, hp⟩
          subst hp
          intro a b ha hb
          simp only [ContentChunk.make] at ha hb
          injection ha with h1
          injection hb with h2
          omega
        · rcases List.mem_cons.mp hc with h | h
          · subst h
            intro a b ha hb
            simp only [ContentChunk.make] at ha hb
            injection ha with h1
            injection hb with h2
            omega
          · rcases List.mem_map.mp h with ⟨p, _, hp⟩
            subst hp
            intro a b ha hb
            simp only [ContentChunk.make] at ha hb
            injection ha with h1
            injection hb with h2
            omega
      · rcases List.mem_map.mp hc with ⟨p, _, hp⟩
        subst hp
        intro a b ha hb
        simp only [ContentChunk.make] at ha hb
        injection ha with h1
        injection hb with h2
        omega

/-- Python chunks have ordered line bounds when the parse tree's line numbers
are ordered (a guarantee of the CPython parser). -/
theorem python_bounds (fp content : Str) (body : List PyStmt)
    (hok : ∀ st ∈ body, stmtLineOK st ∧ ∀ m ∈ pyBody st, stmtLineOK m)
    (cs : List ContentChunk)
    (hret : (process_python_code fp content (PyParseOutcome.ok body)).ret = Except.ok cs) :
    ∀ c ∈ cs, ∀ a b : ℕ, c.start_line = some a → c.end_line = some b → a ≤ b := by
  intro c hc
  simp only [process_python_code] at hret
  split at hret
  · injection hret with h
    subst h
    rcases List.mem_singleton.mp hc with h
    subst h
    intro a b ha hb
    simp only [ContentChunk.make] at ha
    exact absurd ha (by simp)
  · injection hret with h
    subst h
    rcases List.mem_append.mp hc with h | h
    · rcases List.mem_flatMap.mp h with ⟨st, hstmem, hst⟩
      rcases st with ⟨nm, sl, el, cbody⟩ | ⟨nm, sl, el⟩ | _
      · simp only at hst
        split at hst
        · rename_i htru
          rcases List.mem_cons.mp hst with h2 | h2
          · subst h2
            intro a b ha hb
            simp only [ContentChunk.make] at ha hb
            injection ha with h1
            injection hb with h2
            have hsl := (hok _ hstmem).1
            simp only [stmtLineOK] at hsl
            rw [Bool.and_eq_true] at htru
            have hle := hsl htru.1 htru.2
            omega
          · rcases List.mem_filterMap.mp h2 with ⟨m, hmmem, hm⟩
            rcases m with _ | ⟨mn, msl, mel⟩ | _
            · simp at hm
            · simp only at hm
              split at hm
              · rename_i htru2
                injection hm with hm
                subst hm
                intro a b ha hb
                simp only [ContentChunk.make] at ha hb
                injection ha with h1
                injection hb with h2
                have hsl := (hok _ hstmem).2 _ hmmem
                simp only [stmtLineOK] at hsl
                rw [Bool.and_eq_true] at htru2
                have hle := hsl htru2.1 htru2.2
                omega
              · simp at hm
            · simp at hm
        · simp at hst
      · simp at hst
      · simp at hst
    · rcases List.mem_filterMap.mp h with ⟨st, hstmem, hst⟩
      rcases st with ⟨nm, sl, el, cbody⟩ | ⟨nm, sl, el⟩ | _
      · simp at hst
      · simp only at hst
        split at hst
        · rename_i htru
          injection hst with hst
          subst hst
          intro a b ha hb
          simp only [ContentChunk.make] at ha hb
          injection ha with h1
          injection hb with h2
          have hsl := (hok _ hstmem).1
          simp only [stmtLineOK] at hsl
          rw [Bool.and_eq_true] at htru
          have hle := hsl htru.1 htru.2
          omega
        · simp at hst
      · simp at hst

/-- Class-node chunks have ordered line bounds when the node's rows are
ordered. -/
theorem process_class_node_bounds (n : TSNode) (fp ct : Str) (h : allNodes rowOK n) :
    ∀ c ∈ process_class_node n fp ct,
      ∀ a b : ℕ, c.start_line = some a → c.end_line = some b → a ≤ b := by
  intro c hc a b ha hb
  simp only [process_class_node] at hc
  rcases List.mem_cons.mp hc with h2 | h2
  · subst h2
    simp only [ContentChunk.make] at ha hb
    injection ha with h1
    injection hb with h2
    have := allNodes_self h
    simp only [rowOK] at this
    omega
  · rcases List.mem_filterMap.mp h2 with ⟨child, hchmem, hch⟩
    split at hch
    · injection hch with hch
      subst hch
      simp only [ContentChunk.make] at ha hb
      injection ha with h1
      injection hb with h2
      have := allNodes_self (allNodes_children h child hchmem)
      simp only [rowOK] at this
      omega
    · simp at hch

theorem allNodes_children_list {P : TSNode → Prop} {n : TSNode} (h : allNodes P n) :
    allNodesList P n.children := by
  cases n with
  | mk t he im sr sc er ec sb eb tx nc ch => exact h.2

/-- Java chunks have ordered line bounds when every node of the tree has
ordered rows (a guarantee of tree-sitter). -/
theorem java_bounds (fp content : Str) (root : TSNode) (hwf : allNodes rowOK root)
    (cs : List ContentChunk)
    (hret : (process_java_code fp content (Except.ok root)).ret = Except.ok (some cs)) :
    ∀ c ∈ cs, ∀ a b : ℕ, c.start_line = some a → c.end_line = some b → a ≤ b := by
  intro c hc
  simp only [process_java_code] at hret
  split at hret
  · split at hret
    · exact absurd hret (by simp)
    · injection hret with h
      injection h with h
      subst h
      rw [fcm_children_eq] at hc
      exact fcm_list_forall fp content
        (fun c => ∀ a b : ℕ, c.start_line = some a → c.end_line = some b → a ≤ b) rowOK
        (fun n hq => process_class_node_bounds n fp content hq)
        (sizeOf root.children) root.children le_rfl
        (allNodes_children_list hwf) c hc
  · exact absurd hret (by simp)

/-- Go dicts have ordered line fields when every node of the tree has ordered
rows. -/
theorem go_extract_bounds (fp ct : Str) :
    ∀ (k : ℕ) (l : List TSNode), sizeOf l ≤ k → allNodesList rowOK l →
      ∀ d ∈ go_extract_list fp ct l,
        ∃ a b : ℕ, dictLookup d ("start_line".toList) = some (GoVal.n a) ∧
          dictLookup d ("end_line".toList) = some (GoVal.n b) ∧ a ≤ b := by
  intro k
  induction k with
  | zero =>
    intro l hl
    cases l with
    | nil => intro _ d hd; simp [go_extract_list] at hd
    | cons n rest => simp at hl
  | succ k ih =>
    intro l hl hq d hd
    cases l with
    | nil => simp [go_extract_list] at hd
    | cons n rest =>
      simp only [go_extract_list] at hd
      rcases List.mem_append.mp hd with h | h
      · cases n with
        | mk t he im sr sc er ec sb eb tx nc ch =>
          simp only [go_extract_node] at h
          rcases List.mem_append.mp h with h2 | h2
          · split at h2
            · rcases List.mem_singleton.mp h2 with h3
              subst h3
              refine ⟨sr + 1, er + 1, rfl, rfl, ?_⟩
              have := hq.1.1
              simp only [rowOK, TSNode.startRow, TSNode.endRow] at this
              omega
            · simp at h2
          · have hch : sizeOf ch ≤ k := by
              have h4 := sizeOf_children_lt (TSNode.mk t he im sr sc er ec sb eb tx nc ch)
              simp only [TSNode.children] at h4
              simp at hl
              omega
            exact ih ch hch hq.1.2 d h2
      · have hrest : sizeOf rest ≤ k := by simp at hl; omega
        exact ih rest hrest hq.2 d h

/-- Claim C10: every chunk produced by any chunker — windowed, markdown,
Python-structural, Java-structural, or Go-structural — has
`start_line ≤ end_line` whenever both are present. The structural parts
assume the well-formedness the real parsers guarantee: ordered `lineno` and
`end_lineno` on Python nodes, and ordered start/end rows on tree-sitter
nodes. -/
theorem claim_C10_start_le_end :
    (∀ (content fp ct lang : Str) (cs ov : ℕ),
      ∀ c ∈ chunk_by_size content fp ct lang cs ov,
        ∀ a b : ℕ, c.start_line = some a → c.end_line = some b → a ≤ b) ∧
    (∀ fp content : Str, ∀ c ∈ chunk_markdown_by_heading fp content,
        ∀ a b : ℕ, c.start_line = some a → c.end_line = some b → a ≤ b) ∧
    (∀ (fp content : Str) (body : List PyStmt),
      (∀ st ∈ body, stmtLineOK st ∧ ∀ m ∈ pyBody st, stmtLineOK m) →
      ∀ cs : List ContentChunk,
        (process_python_code fp content (PyParseOutcome.ok body)).ret = Except.ok cs →
        ∀ c ∈ cs, ∀ a b : ℕ, c.start_line = some a → c.end_line = some b → a ≤ b) ∧
    (∀ (fp content : Str) (root : TSNode), allNodes rowOK root →
      ∀ cs : List ContentChunk,
        (process_java_code fp content (Except.ok root)).ret = Except.ok (some cs) →
        ∀ c ∈ cs, ∀ a b : ℕ, c.start_line = some a → c.end_line = some b → a ≤ b) ∧
    (∀ (fp content : Str) (root : TSNode), allNodes rowOK root →
      ∀ ds : List GoDict,
        (process_go_code fp content (Except.ok root)).ret = Except.ok ds →
        ∀ d ∈ ds, ∃ a b : ℕ,
          dictLookup d ("start_line".toList) = some (GoVal.n a) ∧
          dictLookup d ("end_line".toList) = some (GoVal.n b) ∧ a ≤ b) := by
  refine ⟨chunk_by_size_bounds, chunk_markdown_bounds,
    fun fp content body hok cs hret => python_bounds fp content body hok cs hret,
    fun fp content root hwf cs hret => java_bounds fp content root hwf cs hret,
    ?_⟩
  intro fp content root hwf ds hret d hd
  simp only [process_go_code] at hret
  split at hret
  · exact absurd hret (by simp)
  · injection hret with h
    subst h
    have hlist : d ∈ go_extract_list fp content [root] := by
      simp only [go_extract_list]
      cases root with
      | mk t he im sr sc er ec sb eb tx nc ch =>
        simpa using hd
    exact go_extract_bounds fp content (sizeOf [root]) [root] le_rfl ⟨hwf, trivial⟩ d hlist

/-- Witness for claim C10: concrete instantiations of each conjunct, with
every hypothesis discharged at a concrete input. -/
theorem claim_C10_witness :
    (∀ a b : ℕ,
      (ContentChunk.make ("abcd".toList) ("f.py".toList) FILE_TYPE_CODE (some 1) (some 1)
        (some LANG_PYTHON) none none
        (ChunkMeta.kind ("size_based_chunk".toList))).start_line = some a →
      (ContentChunk.make ("abcd".toList) ("f.py".toList) FILE_TYPE_CODE (some 1) (some 1)
        (some LANG_PYTHON) none none
        (ChunkMeta.kind ("size_based_chunk".toList))).end_line = some b → a ≤ b) ∧
    (∀ c ∈ chunk_markdown_by_heading ("doc.md".toList) ("# A\nx\n## B\ny".toList),
      ∀ a b : ℕ, c.start_line = some a → c.end_line = some b → a ≤ b) ∧
    (∀ c ∈ find_classes_and_methods ("A.java".toList) javaSampleContent javaRootErr,
      ∀ a b : ℕ, c.start_line = some a → c.end_line = some b → a ≤ b) := by
  refine ⟨?_, ?_, ?_⟩
  · exact claim_C10_start_le_end.1 ("abcd\nxy".toList) ("f.py".toList) FILE_TYPE_CODE
      LANG_PYTHON 5 0 _ (by decide)
  · exact claim_C10_start_le_end.2.1 ("doc.md".toList) ("# A\nx\n## B\ny".toList)
  · exact claim_C10_start_le_end.2.2.2.1 ("A.java".toList) javaSampleContent javaRootErr
      (by simp [javaRootErr, javaClassNode, javaMethodNode, javaIdentA, javaIdentM,
        allNodes, allNodesList, rowOK, TSNode.startRow, TSNode.endRow])
      _ (by decide)

/-- Score pairs arising from `simKey`: nonnegative norm product, vanishing
only together with the dot product. -/
def WFKey (p : ℚ × ℚ) : Prop := 0 ≤ p.2 ∧ (p.2 = 0 → p.1 = 0)

theorem dotQ_self_nonneg : ∀ v : Vec, 0 ≤ dotQ v v := by
  intro v
  induction v with
  | nil => simp [dotQ]
  | cons a as ih =>
    simp only [dotQ]
    have := mul_self_nonneg a
    linarith

theorem dotQ_zero_of_self_zero : ∀ u : Vec, dotQ u u = 0 → ∀ v : Vec, dotQ u v = 0 := by
  intro u
  induction u with
  | nil => intro _ v; cases v <;> simp [dotQ]
  | cons a as ih =>
    intro h v
    have h1 : 0 ≤ a * a := mul_self_nonneg a
    have h2 : 0 ≤ dotQ as as := dotQ_self_nonneg as
    have ha : a = 0 := by
      have : a * a = 0 := by simp only [dotQ] at h; linarith
      exact mul_self_eq_zero.mp this
    have has : dotQ as as = 0 := by simp only [dotQ] at h; linarith
    cases v with
    | nil => simp [dotQ]
    | cons b bs =>
      simp only [dotQ, ha, zero_mul, zero_add]
      exact ih has bs

theorem dotQ_comm : ∀ u v : Vec, dotQ u v = dotQ v u := by
  intro u
  induction u with
  | nil => intro v; cases v <;> simp [dotQ]
  | cons a as ih =>
    intro v
    cases v with
    | nil => simp [dotQ]
    | cons b bs => simp only [dotQ, ih bs]; ring

theorem simKey_wf (q v : Vec) : WFKey (simKey q v) := by
  constructor
  · exact mul_nonneg (dotQ_self_nonneg q) (dotQ_self_nonneg v)
  · intro h
    simp only [simKey] at h ⊢
    rcases mul_eq_zero.mp h with h2 | h2
    · exact dotQ_zero_of_self_zero q h2 v
    · rw [dotQ_comm]
      exact dotQ_zero_of_self_zero v h2 q

theorem cosR_zero {p : ℚ × ℚ} (h : p.1 = 0) : cosR p = 0 := by
  unfold cosR
  split
  · rfl
  · rw [h]
    simp

theorem cosR_nonpos {p : ℚ × ℚ} (h : p.1 ≤ 0) : cosR p ≤ 0 := by
  unfold cosR
  split
  · exact le_rfl
  · apply div_nonpos_of_nonpos_of_nonneg
    · exact_mod_cast h
    · exact Real.sqrt_nonneg _

theorem cosR_nonneg {p : ℚ × ℚ} (h : 0 ≤ p.1) : 0 ≤ cosR p := by
  unfold cosR
  split
  · exact le_rfl
  · apply div_nonneg
    · exact_mod_cast h
    · exact Real.sqrt_nonneg _

theorem wf_snd_pos {p : ℚ × ℚ} (hw : WFKey p) (h : p.1 ≠ 0) : 0 < p.2 := by
  rcases lt_or_eq_of_le hw.1 with h2 | h2
  · exact h2
  · exact absurd (hw.2 h2.symm) h

theorem cosR_pos {p : ℚ × ℚ} (h : 0 < p.1) (hw : WFKey p) : 0 < cosR p := by
  have h2 : 0 < p.2 := wf_snd_pos hw (ne_of_gt h)
  unfold cosR
  rw [if_neg (ne_of_gt h2)]
  apply div_pos
  · exact_mod_cast h
  · exact Real.sqrt_pos.mpr (by exact_mod_cast h2)

theorem cosR_neg {p : ℚ × ℚ} (h : p.1 < 0) (hw : WFKey p) : cosR p < 0 := by
  have h2 : 0 < p.2 := wf_snd_pos hw (ne_of_lt h)
  unfold cosR
  rw [if_neg (ne_of_gt h2)]
  apply div_neg_of_neg_of_pos
  · exact_mod_cast h
  · exact Real.sqrt_pos.mpr (by exact_mod_cast h2)

/-- Cross-multiplied squares decide the cosine comparison when both numerators
are positive. -/
theorem cosLE_pos_iff {a b : ℚ × ℚ} (ha1 : 0 < a.1) (hb1 : 0 < b.1)
    (hwa : WFKey a) (hwb : WFKey b) :
    (a.1 ^ 2 * b.2 ≤ b.1 ^ 2 * a.2) ↔ cosR a ≤ cosR b := by
  have ha2 : 0 < a.2 := wf_snd_pos hwa (ne_of_gt ha1)
  have hb2 : 0 < b.2 := wf_snd_pos hwb (ne_of_gt hb1)
  have ha2R : (0 : ℝ) < (a.2 : ℝ) := by exact_mod_cast ha2
  have hb2R : (0 : ℝ) < (b.2 : ℝ) := by exact_mod_cast hb2
  have hsa : 0 < Real.sqrt (a.2 : ℝ) := Real.sqrt_pos.mpr ha2R
  have hsb : 0 < Real.sqrt (b.2 : ℝ) := Real.sqrt_pos.mpr hb2R
  unfold cosR
  rw [if_neg (ne_of_gt ha2), if_neg (ne_of_gt hb2)]
  rw [div_le_div_iff₀ hsa hsb]
  have step : ((a.1 : ℝ) * Real.sqrt (b.2 : ℝ) ≤ (b.1 : ℝ) * Real.sqrt (a.2 : ℝ)) ↔
      ((a.1 : ℝ) * Real.sqrt (b.2 : ℝ)) ^ 2 ≤ ((b.1 : ℝ) * Real.sqrt (a.2 : ℝ)) ^ 2 := by
    rw [pow_le_pow_iff_left₀ (by positivity) (by positivity) (by omega)]
  rw [step, mul_pow, mul_pow, Real.sq_sqrt (le_of_lt ha2R), Real.sq_sqrt (le_of_lt hb2R)]
  constructor
  · intro h
    have : ((a.1 ^ 2 * b.2 : ℚ) : ℝ) ≤ ((b.1 ^ 2 * a.2 : ℚ) : ℝ) := by exact_mod_cast h
    push_cast at this
    linarith
  · intro h
    have : ((a.1 ^ 2 * b.2 : ℚ) : ℝ) ≤ ((b.1 ^ 2 * a.2 : ℚ) : ℝ) := by push_cast; linarith
    exact_mod_cast this

theorem cosR_neg_fst (p : ℚ × ℚ) : cosR (-p.1, p.2) = -cosR p := by
  unfold cosR
  by_cases h : p.2 = 0
  · simp [h]
  · rw [if_neg h, if_neg h]
    push_cast
    rw [neg_div]

theorem wfKey_neg_fst {p : ℚ × ℚ} (hw : WFKey p) : WFKey (-p.1, p.2) :=
  ⟨hw.1, fun h => by simp [hw.2 h]⟩

/-- The decidable comparison `cosLE` agrees with the real cosine order on
well-formed score pairs. -/
theorem cosLE_iff {a b : ℚ × ℚ} (hwa : WFKey a) (hwb : WFKey b) :
    cosLE a b = true ↔ cosR a ≤ cosR b := by
  unfold cosLE
  by_cases ha : 0 < a.1
  · rw [if_pos ha]
    by_cases hb : 0 < b.1
    · rw [if_pos hb, decide_eq_true_eq]
      exact cosLE_pos_iff ha hb hwa hwb
    · rw [if_neg hb]
      simp only [Bool.false_eq_true, false_iff, not_le]
      exact lt_of_le_of_lt (cosR_nonpos (not_lt.mp hb)) (cosR_pos ha hwa)
  · rw [if_neg ha]
    by_cases hb0 : 0 ≤ b.1
    · rw [if_pos hb0]
      simp only [true_iff]
      exact le_trans (cosR_nonpos (not_lt.mp ha)) (cosR_nonneg hb0)
    · rw [if_neg hb0]
      by_cases haz : a.1 = 0
      · rw [if_pos haz]
        simp only [Bool.false_eq_true, false_iff, not_le]
        rw [cosR_zero haz]
        exact cosR_neg (not_le.mp hb0) hwb
      · rw [if_neg haz, decide_eq_true_eq]
        have ha1 : a.1 < 0 := lt_of_le_of_ne (not_lt.mp ha) haz
        have hb1 : b.1 < 0 := not_le.mp hb0
        have key := cosLE_pos_iff (a := (-b.1, b.2)) (b := (-a.1, a.2))
          (by simpa using hb1) (by simpa using ha1)
          (wfKey_neg_fst hwb) (wfKey_neg_fst hwa)
        rw [cosR_neg_fst, cosR_neg_fst, neg_le_neg_iff] at key
        simpa using key

/-- Chained cross-multiplied comparison through a middle pair with nonzero
numerator. -/
theorem sqChain {a1 b1 c1 a2 b2 c2 : ℚ} (hb : b1 ≠ 0)
    (h1 : a1 ^ 2 * b2 ≤ b1 ^ 2 * a2) (h2 : b1 ^ 2 * c2 ≤ c1 ^ 2 * b2) :
    a1 ^ 2 * c2 ≤ c1 ^ 2 * a2 := by
  have hb2 : 0 < b1 ^ 2 := by positivity
  have chain : b1 ^ 2 * (a1 ^ 2 * c2) ≤ b1 ^ 2 * (c1 ^ 2 * a2) := by
    calc b1 ^ 2 * (a1 ^ 2 * c2) = a1 ^ 2 * (b1 ^ 2 * c2) := by ring
      _ ≤ a1 ^ 2 * (c1 ^ 2 * b2) := mul_le_mul_of_nonneg_left h2 (sq_nonneg a1)
      _ = c1 ^ 2 * (a1 ^ 2 * b2) := by ring
      _ ≤ c1 ^ 2 * (b1 ^ 2 * a2) := mul_le_mul_of_nonneg_left h1 (sq_nonneg c1)
      _ = b1 ^ 2 * (c1 ^ 2 * a2) := by ring
  exact le_of_mul_le_mul_left chain hb2

/-- Transitivity of `cosLE` on arbitrary pairs. -/
theorem cosLE_trans {a b c : ℚ × ℚ} (h1 : cosLE a b = true) (h2 : cosLE b c = true) :
    cosLE a c = true := by
  unfold cosLE at h1 h2 ⊢
  by_cases ha : 0 < a.1
  · rw [if_pos ha] at h1 ⊢
    by_cases hc : 0 < c.1
    · rw [if_pos hc]
      by_cases hb : 0 < b.1
      · rw [if_pos hb, decide_eq_true_eq] at h1
        rw [if_pos hb, if_pos hc, decide_eq_true_eq] at h2
        rw [decide_eq_true_eq]
        exact sqChain (ne_of_gt hb) h1 h2
      · rw [if_neg hb] at h1
        exact absurd h1 (by simp)
    · by_cases hb : 0 < b.1
      · rw [if_pos hb, if_neg hc] at h2
        exact absurd h2 (by simp)
      · rw [if_neg hb] at h1
        exact absurd h1 (by simp)
  · rw [if_neg ha] at h1 ⊢
    by_cases hc0 : 0 ≤ c.1
    · rw [if_pos hc0]
    · rw [if_neg hc0]
      have hcneg : c.1 < 0 := not_le.mp hc0
      by_cases hb : 0 < b.1
      · rw [if_pos hb, if_neg (not_lt.mpr (le_of_lt hcneg))] at h2
        exact absurd h2 (by simp)
      · by_cases hb0 : 0 ≤ b.1
        · have hbz : b.1 = 0 := le_antisymm (not_lt.mp hb) hb0
          rw [if_neg hb, if_neg hc0, if_pos hbz] at h2
          exact absurd h2 (by simp)
        · by_cases haz : a.1 = 0
          · rw [if_neg hb0, if_pos haz] at h1
            exact absurd h1 (by simp)
          · rw [if_neg haz, decide_eq_true_eq]
            rw [if_neg hb0, if_neg haz, decide_eq_true_eq] at h1
            have hbz : b.1 ≠ 0 := ne_of_lt (not_le.mp hb0)
            rw [if_neg hb, if_neg hc0, if_neg hbz, decide_eq_true_eq] at h2
            exact sqChain hbz h2 h1

/-- Totality of `cosLE` on arbitrary pairs. -/
theorem cosLE_total (a b : ℚ × ℚ) : cosLE a b = true ∨ cosLE b a = true := by
  unfold cosLE
  by_cases ha : 0 < a.1
  · by_cases hb : 0 < b.1
    · rcases le_total (a.1 ^ 2 * b.2) (b.1 ^ 2 * a.2) with h | h
      · left
        rw [if_pos ha, if_pos hb, decide_eq_true_eq]
        exact h
      · right
        rw [if_pos hb, if_pos ha, decide_eq_true_eq]
        exact h
    · right
      rw [if_neg hb, if_pos (le_of_lt ha)]
  · by_cases hb0 : 0 ≤ b.1
    · left
      rw [if_neg ha, if_pos hb0]
    · by_cases haz : a.1 = 0
      · right
        rw [if_neg (not_lt.mpr (le_of_lt (not_le.mp hb0))), if_pos (le_of_eq haz.symm)]
      · have hneg : a.1 < 0 := lt_of_le_of_ne (not_lt.mp ha) haz
        have hbneg : b.1 < 0 := not_le.mp hb0
        rcases le_total (b.1 ^ 2 * a.2) (a.1 ^ 2 * b.2) with h | h
        · left
          rw [if_neg ha, if_neg hb0, if_neg haz, decide_eq_true_eq]
          exact h
        · right
          rw [if_neg (not_lt.mpr (le_of_lt hbneg)), if_neg (not_le.mpr hneg),
            if_neg (ne_of_lt hbneg), decide_eq_true_eq]
          exact h

instance : IsTrans (ℕ × (ℚ × ℚ)) keyOrder :=
  ⟨fun _a _b _c hab hbc =>
    ⟨cosLE_trans hab.1 hbc.1, fun hca =>
      le_trans (hab.2 (cosLE_trans hbc.1 hca)) (hbc.2 (cosLE_trans hca hab.1))⟩⟩

instance : IsTotal (ℕ × (ℚ × ℚ)) keyOrder :=
  ⟨fun a b => by
    rcases cosLE_total a.2 b.2 with h | h
    · by_cases h2 : cosLE b.2 a.2 = true
      · rcases Nat.le_total a.1 b.1 with h3 | h3
        · exact Or.inl ⟨h, fun _ => h3⟩
        · exact Or.inr ⟨h2, fun _ => h3⟩
      · exact Or.inl ⟨h, fun hh => absurd hh h2⟩
    · by_cases h2 : cosLE a.2 b.2 = true
      · rcases Nat.le_total a.1 b.1 with h3 | h3
        · exact Or.inl ⟨h2, fun _ => h3⟩
        · exact Or.inr ⟨h, fun _ => h3⟩
      · exact Or.inr ⟨h, fun hh => absurd hh h2⟩⟩

/-- Python `l[:k]` is a sublist of `l`. -/
theorem pySlice_sublist {α : Type} (l : List α) (k : ℤ) : (pySlice l k).Sublist l := by
  unfold pySlice
  split
  · exact List.take_sublist _ _
  · exact List.take_sublist _ _

/-- Length of Python `l[:k]`. -/
theorem pySlice_length {α : Type} (l : List α) (k : ℤ) :
    (pySlice l k).length = if 0 ≤ k then min k.toNat l.length else l.length - (-k).toNat := by
  unfold pySlice
  split
  · exact List.length_take _ _
  · rw [List.length_take]
    omega

/-- Every entry of the ranked index list is a genuine corpus index carrying
the score key of its own candidate vector. -/
theorem retrieveIdx_mem (r : CosineRetriever) (q : Str) (k : ℤ) :
    ∀ p ∈ retrieveIdx r q k,
      p.1 < r.embedded_chunks.length ∧
      p.2 = simKey (r.embed_model q) ((r.embedded_chunks.map Prod.snd).getD p.1 []) := by
  intro p hp
  simp only [retrieveIdx] at hp
  have h1 := List.Sublist.mem hp (pySlice_sublist _ k)
  rw [List.mem_reverse] at h1
  have h2 := (List.perm_insertionSort keyOrder _).mem_iff.mp h1
  obtain ⟨i, pk⟩ := p
  have h3 := List.mem_enum h2
  rcases h3 with ⟨hlt, hval⟩
  have hlen : i < r.embedded_chunks.length := by
    rw [List.length_map] at hlt
    exact hlt
  refine ⟨hlen, ?_⟩
  have hgd : (r.embedded_chunks.map Prod.snd).getD i [] = r.embedded_chunks[i].2 := by
    rw [List.getD_eq_getElem _ _ (by rw [List.length_map]; exact hlen)]
    exact List.getElem_map Prod.snd
  rw [hgd, hval, List.getElem_map]

/-- The ranked index list has pairwise-distinct corpus indices. -/
theorem retrieveIdx_nodup_fst (r : CosineRetriever) (q : Str) (k : ℤ) :
    ((retrieveIdx r q k).map Prod.fst).Nodup := by
  simp only [retrieveIdx]
  have hperm : (((r.embedded_chunks.map (fun p => simKey (r.embed_model q) p.2)).enum.insertionSort
      keyOrder).map Prod.fst).Perm
        ((r.embedded_chunks.map (fun p => simKey (r.embed_model q) p.2)).enum.map Prod.fst) :=
    List.Perm.map Prod.fst (List.perm_insertionSort keyOrder _)
  rw [List.enum_map_fst] at hperm
  have hnodup := hperm.nodup_iff.mpr (List.nodup_range _)
  have hrev : ((((r.embedded_chunks.map (fun p => simKey (r.embed_model q) p.2)).enum.insertionSort
      keyOrder).reverse).map Prod.fst).Nodup := by
    rw [List.map_reverse, List.nodup_reverse]
    exact hnodup
  exact List.Nodup.sublist (List.Sublist.map Prod.fst (pySlice_sublist _ k)) hrev

/-- The ranked index list is sorted: each earlier entry dominates each later
entry in the argsort order. -/
theorem retrieveIdx_pairwise (r : CosineRetriever) (q : Str) (k : ℤ) :
    (retrieveIdx r q k).Pairwise (fun x y => keyOrder y x) := by
  simp only [retrieveIdx]
  have hs : List.Pairwise keyOrder
      ((r.embedded_chunks.map (fun p => simKey (r.embed_model q) p.2)).enum.insertionSort
        keyOrder) :=
    List.sorted_insertionSort keyOrder _
  have hrev := List.pairwise_reverse.mpr hs
  exact List.Pairwise.sublist (pySlice_sublist _ k) hrev

/-- Claim C2 counterexample: two candidates with identical vectors (hence
exactly equal cosine similarity) come back in reverse corpus order — the
ascending argsort is reversed wholesale, so ties surface last-first, not in
original order. -/
theorem claim_C2_counterexample :
    retrieve tiedRetriever ("q".toList) 5 =
      Except.ok [("B".toList, (1, 1)), ("A".toList, (1, 1))] ∧
    tiedRetriever.embedded_chunks.map Prod.fst = ["A".toList, "B".toList] ∧
    tiedRetriever.embedded_chunks.map Prod.snd = [[1], [1]] ∧
    retrieve tiedRetriever ("q".toList) 5 ≠
      Except.ok [("A".toList, (1, 1)), ("B".toList, (1, 1))] := by
  refine ⟨by decide, by decide, by decide, by decide⟩

/-- Claim C2 (amended): for a non-empty, dimension-consistent corpus the
retriever returns the candidates ranked by non-increasing real cosine
similarity, and candidates with exactly equal similarity appear in reverse
corpus order (strictly descending original index), not original order. The
scores are carried as sqrt-free pairs whose real value is `cosR`; argsort is
modelled as the stable ascending sort. -/
theorem claim_C2_ranking (r : CosineRetriever) (q : Str) (k : ℤ)
    (hne : r.embedded_chunks ≠ [])
    (hdim : r.embedded_chunks.all (fun p => p.2.length == (r.embed_model q).length) = true) :
    retrieve r q k =
      Except.ok ((retrieveIdx r q k).map
        (fun p => ((r.embedded_chunks.map Prod.fst).getD p.1 [], p.2))) ∧
    (∀ p ∈ retrieveIdx r q k,
      p.1 < r.embedded_chunks.length ∧
      p.2 = simKey (r.embed_model q) ((r.embedded_chunks.map Prod.snd).getD p.1 [])) ∧
    (retrieveIdx r q k).Pairwise (fun x y =>
      cosR y.2 ≤ cosR x.2 ∧ (cosR x.2 = cosR y.2 → y.1 < x.1)) := by
  refine ⟨?_, retrieveIdx_mem r q k, ?_⟩
  · simp only [retrieve]
    rw [if_neg (by simpa [List.isEmpty_iff] using hne), if_neg (by rw [hdim]; simp)]
  · have hpw := retrieveIdx_pairwise r q k
    have hnd : (retrieveIdx r q k).Pairwise (fun x y => x.1 ≠ y.1) := by
      have := retrieveIdx_nodup_fst r q k
      rw [List.Nodup, List.pairwise_map] at this
      exact this
    have hboth := hpw.and hnd
    refine hboth.imp_of_mem ?_
    intro x y hx hy hxy
    have hwx : WFKey x.2 := by
      rcases retrieveIdx_mem r q k x hx with ⟨_, hval⟩
      rw [hval]
      exact simKey_wf _ _
    have hwy : WFKey y.2 := by
      rcases retrieveIdx_mem r q k y hy with ⟨_, hval⟩
      rw [hval]
      exact simKey_wf _ _
    rcases hxy with ⟨⟨hle, htie⟩, hne2⟩
    refine ⟨(cosLE_iff hwy hwx).mp hle, ?_⟩
    intro heq
    have hxy2 : cosLE x.2 y.2 = true := (cosLE_iff hwx hwy).mpr (le_of_eq heq)
    have := htie hxy2
    omega

/-- Witness for claim C2: the tied retriever instantiates the amended
ranking statement. -/
theorem claim_C2_witness :
    retrieve tiedRetriever ("q".toList) 5 =
      Except.ok ((retrieveIdx tiedRetriever ("q".toList) 5).map
        (fun p => ((tiedRetriever.embedded_chunks.map Prod.fst).getD p.1 [], p.2))) ∧
    (∀ p ∈ retrieveIdx tiedRetriever ("q".toList) 5,
      p.1 < tiedRetriever.embedded_chunks.length ∧
      p.2 = simKey (tiedRetriever.embed_model ("q".toList))
        ((tiedRetriever.embedded_chunks.map Prod.snd).getD p.1 [])) ∧
    (retrieveIdx tiedRetriever ("q".toList) 5).Pairwise (fun x y =>
      cosR y.2 ≤ cosR x.2 ∧ (cosR x.2 = cosR y.2 → y.1 < x.1)) :=
  claim_C2_ranking tiedRetriever ("q".toList) 5 (by decide) (by decide)

/-- Claim C3 counterexample: with two candidates and `topK = -1`, the slice
`[:-1]` returns one result, not the empty sequence the claim requires for
`topK ≤ 0`; and the empty corpus raises instead of returning `[]`. -/
theorem claim_C3_counterexample :
    retrieve tiedRetriever ("q".toList) (-1) = Except.ok [("B".toList, (1, 1))] ∧
    retrieve tiedRetriever ("q".toList) (-1) ≠ Except.ok [] ∧
    retrieve ⟨[], tiedRetriever.embed_model⟩ ("q".toList) 5 = Except.error () := by
  refine ⟨by decide, by decide, by decide⟩

/-- Claim C3 (amended): for a non-empty, dimension-consistent corpus the
retriever returns exactly `min(topK, n)` results when `topK ≥ 0` (so
`topK = 0` yields the empty sequence), and `n - min(n, |topK|)` results when
`topK < 0` (Python negative-slice semantics); an empty corpus raises
(sklearn's cosine_similarity rejects the empty candidate matrix) rather than
returning the empty sequence. -/
theorem claim_C3_result_count (r : CosineRetriever) (q : Str) (k : ℤ) :
    (r.embedded_chunks = [] → retrieve r q k = Except.error ()) ∧
    (r.embedded_chunks ≠ [] →
      r.embedded_chunks.all (fun p => p.2.length == (r.embed_model q).length) = true →
      ∃ out, retrieve r q k = Except.ok out ∧
        out.length = if 0 ≤ k then min k.toNat r.embedded_chunks.length
          else r.embedded_chunks.length - (-k).toNat) := by
  constructor
  · intro h
    simp only [retrieve]
    rw [if_pos (by simp [List.isEmpty_iff, h])]
  · intro hne hdim
    refine ⟨(retrieveIdx r q k).map
        (fun p => ((r.embedded_chunks.map Prod.fst).getD p.1 [], p.2)), ?_, ?_⟩
    · simp only [retrieve]
      rw [if_neg (by simpa [List.isEmpty_iff] using hne), if_neg (by rw [hdim]; simp)]
    · rw [List.length_map]
      simp only [retrieveIdx]
      rw [pySlice_length]
      have hlen : ((r.embedded_chunks.map
          (fun p => simKey (r.embed_model q) p.2)).enum.insertionSort keyOrder).reverse.length
          = r.embedded_chunks.length := by
        rw [List.length_reverse, (List.perm_insertionSort keyOrder _).length_eq,
          List.enum_length, List.length_map]
      rw [hlen]

/-- Witness for claim C3: both conjuncts instantiated concretely — the empty
corpus raises, and the two-candidate corpus with `topK = -1` returns
`2 - 1 = 1` result. -/
theorem claim_C3_witness :
    (retrieve ⟨[], fun _ => [1]⟩ ("q".toList) 7 = Except.error ()) ∧
    (∃ out, retrieve tiedRetriever ("q".toList) (-1) = Except.ok out ∧
      out.length = if 0 ≤ (-1 : ℤ) then min (-1 : ℤ).toNat tiedRetriever.embedded_chunks.length
        else tiedRetriever.embedded_chunks.length - (-(-1 : ℤ)).toNat) :=
  ⟨(claim_C3_result_count ⟨[], fun _ => [1]⟩ ("q".toList) 7).1 rfl,
   (claim_C3_result_count tiedRetriever ("q".toList) (-1)).2 (by decide) (by decide)⟩
